import Mathlib

/-!
Verification of the reflow memoizing computation-graph engine.

This file gives a shallow embedding, in Lean 4, of the parts of the
`reflow` Python package that the verified properties are about:

* `src/reflow/cache/utils.py`   — canonical cache-key serialization,
* `src/reflow/cache/dict_cache.py` — the in-memory dictionary cache,
* `src/reflow/cache/file_cache.py` — the concurrency-safe file cache,
* `src/reflow/recipe.py`        — the step graph (the parts used here),
* `src/reflow/utils/utils.py`   — recipe filtering and option expansion,
* `src/reflow/utils/execution.py` — the backward (lazy) execution planner,
* `src/reflow/executor/cacheonly.py` — the cache-only executor.

Modelling conventions:

* A Python `dict` is modelled as an insertion-ordered association list.
* Fallible Python code (operations that can raise `KeyError`,
  `TypeError` or `ValueError`) returns `Except PyErr _`.
* Python `None` is modelled as `Option.none` where a value may be `None`.
* Values stored in caches are a type parameter `α`.
-/

/-- The Python exception classes that the embedded code can raise. -/
inductive PyErr where
  | keyError
  | typeError
  | valueError
  deriving DecidableEq, Repr

deriving instance DecidableEq for Except

/-- An options-assignment (`Options = dict[str, Hashable]` in
`recipe.py`): a mapping from step names to chosen option names, modelled
as an insertion-ordered association list.  Option names are modelled as
strings (the source hashes/serializes them through `str`). -/
abbrev Opts := List (String × String)

/-- `Recipe.NOOP` from `recipe.py`: the designated no-op option name. -/
def NOOP : String := "NOOP"

/-- `Recipe._DAG_ROOT` from `recipe.py`: the synthetic root node name. -/
def ROOT : String := "ROOT"

/-- Python's `<` on strings: lexicographic comparison of the code
point sequences.  Defined on char lists by structural recursion so
that it computes inside the kernel (`Char.lt` is code-point order). -/
def charListLt : List Char → List Char → Bool
  | [], [] => false
  | [], _ :: _ => true
  | _ :: _, [] => false
  | a :: as, b :: bs =>
      if a < b then true else if b < a then false else charListLt as bs

/-- Python's `s1 < s2` on strings. -/
def strLtB (a b : String) : Bool := charListLt a.data b.data

/-- Python's `s1 <= s2` on strings (the total order used by `sorted`). -/
def strLeB (a b : String) : Bool := !strLtB b a

/-- The propositional form of `strLeB`, the sort relation of Python's
`sorted` on strings. -/
abbrev strLe (a b : String) : Prop := strLeB a b = true

instance : DecidableRel strLe :=
  fun a b => inferInstanceAs (Decidable (strLeB a b = true))

/-- Python's `str.split(sep)` for a non-empty separator, on char
lists: scan left to right, cutting at each non-overlapping occurrence
of the separator.  The scan is given fuel (one unit per character) so
that it is structurally recursive and computes in the kernel. -/
def splitCharsGo (sep : List Char) : Nat → List Char → List Char →
    List (List Char)
  | 0, _, acc => [acc.reverse]
  | _ + 1, [], acc => [acc.reverse]
  | fuel + 1, c :: rest, acc =>
      if sep.isPrefixOf (c :: rest) then
        acc.reverse :: splitCharsGo sep fuel ((c :: rest).drop sep.length) []
      else
        splitCharsGo sep fuel rest (c :: acc)

/-- Python's `s.split(sep)` (non-empty `sep`). -/
def pySplit (s sep : String) : List String :=
  (splitCharsGo sep.data (s.data.length + 1) s.data []).map List.asString

/-- `format_option` from `cache/utils.py`: `f"{step_name}={option_name}"`. -/
def formatOption (stepName optionName : String) : String :=
  stepName ++ "=" ++ optionName

/-- The sorted key list `list(sorted(options.keys()))` used by
`format_options` in `cache/utils.py`. -/
def sortedKeys (options : Opts) : List String :=
  List.insertionSort strLe (options.map Prod.fst)

/-- `format_options` from `cache/utils.py`: serialize an assignment by
sorting the step names, keeping a step unless its chosen option is the
no-op option (and `include_noop` is false), formatting each step as
`step=option` and joining with `"___"`. -/
def formatOptions (options : Opts) (includeNoop : Bool) : String :=
  String.intercalate "___"
    (((sortedKeys options).filter
        (fun s => options.lookup s != some NOOP || includeNoop)).map
      (fun s => formatOption s ((options.lookup s).getD "")))

/-- `format_key` from `cache/utils.py`: the canonical cache key
`f"{step}={options[step]}___{format_options(options)}"`.  The indexing
`options[step]` raises `KeyError` when `step` is not a key of the
assignment, hence the `Except`. -/
def formatKey (step : String) (options : Opts) (includeNoop : Bool := false) :
    Except PyErr String :=
  match options.lookup step with
  | none => .error .keyError
  | some stepOption =>
      .ok (formatOption step stepOption ++ "___" ++ formatOptions options includeNoop)

/-- `parse_option` from `cache/utils.py`: `option.split("=")`. -/
def parseOption (s : String) : List String :=
  pySplit s "="

/-- `parse_options` from `cache/utils.py`.  Despite its `-> Options`
annotation the source returns a *list* of `split("=")` results, not a
dict; this is what makes `DictCache.delete_all` fail (see below). -/
def parseOptionsList (pathString : String) : List (List String) :=
  (pySplit pathString "___").map parseOption

/-- A Python list indexed with a string key raises
`TypeError: list indices must be integers`.  `DictCache.delete_all` does
exactly this with the result of `parse_options`. -/
def listIndexedByString (_l : List (List String)) (_k : String) :
    Except PyErr String :=
  .error .typeError

/-- In-place insert-or-replace on an insertion-ordered association
list: the update semantics of a Python `dict` assignment. -/
def dictInsert {β : Type} (l : List (String × β)) (k : String) (v : β) :
    List (String × β) :=
  match l with
  | [] => [(k, v)]
  | (k', v') :: t => if k' = k then (k, v) :: t else (k', v') :: dictInsert t k v

/-- `DictCache` from `cache/dict_cache.py`: `self.dict` maps the
formatted key string to the pair `((step, options), item)`. -/
structure DictCache (α : Type) where
  entries : List (String × ((String × Opts) × α))
  deriving DecidableEq, Repr

namespace DictCache

/-- The empty dictionary cache (`DictCache.__init__`). -/
def empty (α : Type) : DictCache α := ⟨[]⟩

/-- `DictCache.set`: `self.dict[format_key(step, options)] = ((step, options), item)`. -/
def set (c : DictCache α) (step : String) (options : Opts) (item : α) :
    Except PyErr (DictCache α) :=
  (formatKey step options).map
    (fun fk => ⟨dictInsert c.entries fk ((step, options), item)⟩)

/-- `DictCache.get`: computes the formatted key (`KeyError` when `step`
is absent from `options`), then runs
`key, item = self.dict.get(formatted_key, default)`.
On a hit this returns the stored item.  On a miss the *default itself*
is unpacked as a pair: for the default `None` (and any other non-pair
default) this raises `TypeError: cannot unpack non-sequence`; a pair
default would yield its second component rather than the default.  The
miss branch is therefore modelled as `TypeError`, which is exact for
the `None` default the callers use. -/
def get (c : DictCache α) (step : String) (options : Opts)
    (_default : Option α) : Except PyErr α :=
  match formatKey step options with
  | .error e => .error e
  | .ok fk =>
      match c.entries.lookup fk with
      | some (_key, item) => .ok item
      | none => .error .typeError

/-- `DictCache.contains`: `format_key(step, options) in self.dict`. -/
def contains (c : DictCache α) (step : String) (options : Opts) :
    Except PyErr Bool :=
  (formatKey step options).map (fun fk => (c.entries.lookup fk).isSome)

/-- `DictCache.delete`: `del self.dict[format_key(step, options)]` —
`del` on a missing dictionary key raises `KeyError`. -/
def delete (c : DictCache α) (step : String) (options : Opts) :
    Except PyErr (DictCache α) :=
  match formatKey step options with
  | .error e => .error e
  | .ok fk =>
      if (c.entries.lookup fk).isSome then
        .ok ⟨c.entries.filter (fun kv => kv.1 ≠ fk)⟩
      else
        .error .keyError

/-- The step and step-option parts of a stored formatted key, as
`parse_key(formatted_key, return_step_option=True)` extracts them in
`cache/utils.py`: split on `"___"`, then split the first element on
`"="` and unpack into exactly two names (a different arity raises
`ValueError` at the tuple unpacking). -/
def parseKeyStepOption (formattedKey : String) :
    Except PyErr (String × String) :=
  match (pySplit formattedKey "___").head? with
  | none => .error .valueError
  | some first =>
      match parseOption first with
      | [step, stepOption] => .ok (step, stepOption)
      | _ => .error .valueError

/-- The loop of `DictCache.delete_all` for `option = None`: walk the
snapshot of the stored keys, parse each one, and delete the entries
whose key step equals `step`; a key that fails to parse propagates its
exception. -/
def deleteAllLoop (step : String) :
    List String → List (String × ((String × Opts) × α)) →
    Except PyErr (List (String × ((String × Opts) × α)))
  | [], es => .ok es
  | k :: rest, es =>
      match parseKeyStepOption k with
      | .error e => .error e
      | .ok (keyStep, _) =>
          if keyStep = step then
            deleteAllLoop step rest (es.filter (fun kv => kv.1 ≠ k))
          else
            deleteAllLoop step rest es

/-- `DictCache.delete_all` from `cache/dict_cache.py`.  When `option`
is not `None` the source first evaluates
`parse_options(format_options({step: option}))[step]`: `parse_options`
returns a Python *list*, and indexing a list with the string `step`
raises `TypeError` before any entry is deleted.  With `option = None`
it deletes every entry whose parsed key step equals `step`. -/
def delete_all (c : DictCache α) (step : String) (option : Option String) :
    Except PyErr (DictCache α) :=
  match option with
  | some o =>
      match listIndexedByString (parseOptionsList (formatOptions [(step, o)] false)) step with
      | .error e => .error e
      | .ok _parsedOption => .error .typeError
  | none =>
      (deleteAllLoop step (c.entries.map Prod.fst) c.entries).map
        (fun es => ⟨es⟩)

end DictCache

/-- A completed file of the `FileCache` directory
(`cache/file_cache.py`).  A cache file's name is
`cache___{hash(step)}={hash(option)}___{hash(options-string)}___ts-{ts}___seed-{seed}.pickle`
and its content is the pickled pair `((step, options), item)`.
The md5 hex digest used by `FileCache._hash` serves only filename
safety (spec: "Hashing is only for filename safety"); it is modelled
as an injective encoding (the identity on the hashed string).  The
hash components are stored as fields; the source's
`_parse_basename` string splitting is their projection, which is
faithful because md5 digests are fixed-length hex words containing
neither `"___"` nor `"="`.  A write creates a `tmp___`-prefixed file
and atomically renames it, so only completed files are ever visible to
readers; the model therefore holds completed files only. -/
structure FCFile (α : Type) where
  stepHash : String
  optionHash : String
  optionsHash : String
  ts : String
  seed : String
  key : String × Opts
  item : α
  deriving DecidableEq, Repr

/-- `FileCache._hash`: `hashlib.md5(str(obj).encode()).hexdigest()`,
modelled as the injective identity encoding (see `FCFile`). -/
def hashF (s : String) : String := s

/-- The basename of a cache file, as `FileCache._format_basename`
builds it: `cache___{hash(step)}={hash(options[step])}___{hash(format_options(options))}`. -/
def FCFile.basename (f : FCFile α) : String :=
  "cache" ++ "___" ++ f.stepHash ++ "=" ++ f.optionHash ++ "___" ++ f.optionsHash

/-- The full file name, as `FileCache._new_file` builds it (for a
completed, non-`tmp` file):
`{basename}___ts-{ts}___seed-{seed}.pickle`. -/
def FCFile.fname (f : FCFile α) : String :=
  f.basename ++ "___ts-" ++ f.ts ++ "___seed-" ++ f.seed ++ ".pickle"

/-- `FileCache._format_basename` for a key `(step, options)`: the hash
triple.  `options[step]` raises `KeyError` when `step` is not a key of
the assignment. -/
def formatBasenameTriple (step : String) (options : Opts) :
    Except PyErr (String × String × String) :=
  match options.lookup step with
  | none => .error .keyError
  | some stepOption =>
      .ok (hashF step, hashF stepOption, hashF (formatOptions options false))

/-- Whether a file is found by the glob
`{basename(step, options)}___ts-*___seed-*.pickle`.  Because md5
digests are fixed-length hex words, the glob matches exactly the
well-formed cache files whose hash triple equals the key's triple. -/
def FCFile.matchesKey (f : FCFile α) (triple : String × String × String) : Bool :=
  f.stepHash == triple.1 && f.optionHash == triple.2.1 && f.optionsHash == triple.2.2

/-- Files sorted by `sorted(files, reverse=True)`: descending
lexicographic order of their full names (all files live in one
directory, so path order is file-name order). -/
abbrev nameGe (f g : FCFile α) : Prop := strLe g.fname f.fname

/-- Descending sort of a file list by full file name. -/
def sortDescByName (fs : List (FCFile α)) : List (FCFile α) :=
  List.insertionSort nameGe fs

/-- `FileCache._get_most_recent_file`: glob the files matching the
key's basename and return the first of the reverse-sorted list, or
`None` when there is no match. -/
def mostRecentFile (fs : List (FCFile α)) (step : String) (options : Opts) :
    Except PyErr (Option (FCFile α)) :=
  (formatBasenameTriple step options).map (fun triple =>
    match sortDescByName (fs.filter (fun f => f.matchesKey triple)) with
    | [] => none
    | f :: _ => some f)

/-- `FileCache._clean_up_old_files`: among the files matching the
key's basename, unlink all but the first of the reverse-sorted list. -/
def cleanUpOldFiles (fs : List (FCFile α)) (triple : String × String × String) :
    List (FCFile α) :=
  match sortDescByName (fs.filter (fun f => f.matchesKey triple)) with
  | [] => fs
  | newest :: _ =>
      fs.filter (fun f => !f.matchesKey triple || f.fname == newest.fname)

namespace FileCache

/-- `FileCache.set`: serialize `((step, options), item)` to a temp
file, atomically rename it to a fresh name carrying a nanosecond
timestamp and a 7-character random seed, then (when `cleanup` is true)
delete all but the most recent file of this key.  The timestamp and
seed of the completed file (the second `_new_file` call) are explicit
arguments here, making the clock and randomness explicit. -/
def set (fs : List (FCFile α)) (step : String) (options : Opts) (item : α)
    (ts seed : String) (cleanup : Bool := true) :
    Except PyErr (List (FCFile α)) :=
  (formatBasenameTriple step options).map (fun triple =>
    let fs' := fs ++ [⟨triple.1, triple.2.1, triple.2.2, ts, seed, (step, options), item⟩]
    if cleanup then cleanUpOldFiles fs' triple else fs')

/-- `FileCache.get`: load the most recent matching file and return its
stored item, or the caller-supplied default when there is none.
`Option α` is the Python value domain (`none` is Python `None`). -/
def get (fs : List (FCFile α)) (step : String) (options : Opts)
    (default : Option α := none) : Except PyErr (Option α) :=
  (mostRecentFile fs step options).map (fun
    | none => default
    | some f => some f.item)

/-- `FileCache.contains`: `self._get_most_recent_file(step, options) is not None`. -/
def contains (fs : List (FCFile α)) (step : String) (options : Opts) :
    Except PyErr Bool :=
  (mostRecentFile fs step options).map Option.isSome

/-- `FileCache.delete`: unlink every file matching the key's glob. -/
def delete (fs : List (FCFile α)) (step : String) (options : Opts) :
    Except PyErr (List (FCFile α)) :=
  (formatBasenameTriple step options).map (fun triple =>
    fs.filter (fun f => !f.matchesKey triple))

/-- `FileCache.delete_all`: walk all `cache___`-prefixed files, parse
the step and option hashes out of each name, and unlink the files
whose step hash matches `hash(step)` and, when `option` is given,
whose option hash matches `hash(option)` as well. -/
def delete_all (fs : List (FCFile α)) (step : String) (option : Option String) :
    List (FCFile α) :=
  fs.filter (fun f =>
    if f.stepHash != hashF step then true
    else
      match option with
      | some o => f.optionHash != hashF o
      | none => false)

end FileCache

/-- The step graph of `Recipe` (`recipe.py`): a `networkx.DiGraph`
whose nodes are step names.  Nodes and edges keep insertion order
(the source relies on `dict` ordering, see the `Recipe` docstring);
each non-root node carries its ordered option set, of which only the
option names matter here. -/
structure Recipe where
  nodes : List String
  edges : List (String × String)
  opts : List (String × List String)
  deriving DecidableEq, Repr

namespace Recipe

/-- A fresh `Recipe()`: the graph holding only the `ROOT` node. -/
def empty : Recipe := ⟨[ROOT], [], []⟩

/-- `DiGraph.successors`, in edge-insertion order. -/
def successors (r : Recipe) (n : String) : List String :=
  (r.edges.filter (fun e => e.1 == n)).map Prod.snd

/-- `DiGraph.predecessors`, in edge-insertion order. -/
def predecessors (r : Recipe) (n : String) : List String :=
  (r.edges.filter (fun e => e.2 == n)).map Prod.fst

/-- The option names of a step
(`recipe.steps.nodes[step]["options"].keys()`). -/
def optsOf (r : Recipe) (s : String) : List String :=
  (r.opts.lookup s).getD []

/-- Replace a step's option set
(`recipe.steps.nodes[step]["options"] = new_options`). -/
def setOpts (r : Recipe) (s : String) (new : List String) : Recipe :=
  ⟨r.nodes, r.edges, dictInsert r.opts s new⟩

/-- `DiGraph.remove_nodes_from`: drop the nodes, their incident edges
and their attached data. -/
def removeNodes (r : Recipe) (ns : List String) : Recipe :=
  ⟨r.nodes.filter (fun n => !ns.contains n),
   r.edges.filter (fun e => !ns.contains e.1 && !ns.contains e.2),
   r.opts.filter (fun kv => !ns.contains kv.1)⟩

/-- `DiGraph.add_edge` for one edge: a no-op when the edge exists,
otherwise appended.  (networkx would also create missing endpoint
nodes; every edge added by the embedded code joins two existing nodes,
so that branch is not modelled.) -/
def addEdge (r : Recipe) (e : String × String) : Recipe :=
  if e ∈ r.edges then r else ⟨r.nodes, r.edges ++ [e], r.opts⟩

/-- `DiGraph.add_edges_from`. -/
def addEdges (r : Recipe) (es : List (String × String)) : Recipe :=
  es.foldl addEdge r

/-- Append the members of `xs` not already present (the effect of
`set.update` on an iteration-ordered set model). -/
def addNew (acc : List String) (xs : List String) : List String :=
  xs.foldl (fun a x => if x ∈ a then a else a ++ [x]) acc

/-- One round of successor expansion of a reached set. -/
def expandSucc (r : Recipe) (acc : List String) : List String :=
  addNew acc (acc.flatMap (successors r))

/-- One round of predecessor expansion of a reached set. -/
def expandPred (r : Recipe) (acc : List String) : List String :=
  addNew acc (acc.flatMap (predecessors r))

/-- Saturate a reached set under an expansion map for `k` rounds. -/
def saturate (f : List String → List String) : Nat → List String → List String
  | 0, acc => acc
  | k + 1, acc => saturate f k (f acc)

/-- `nx.descendants(graph, n)`: every node reachable from `n` by a
non-empty path, excluding `n` itself.  Saturating `|nodes|` rounds
reaches the fixpoint on any graph. -/
def descendants (r : Recipe) (n : String) : List String :=
  (saturate (expandSucc r) r.nodes.length [n]).filter (fun x => x ≠ n)

/-- `nx.ancestors(graph, n)`, symmetrically. -/
def ancestors (r : Recipe) (n : String) : List String :=
  (saturate (expandPred r) r.nodes.length [n]).filter (fun x => x ≠ n)

/-- `Recipe.delete_step`: a missing step only logs a warning; for a
present step the source computes `nx.descendants(self.steps, step)` —
which does *not* contain `step` itself — and removes exactly those
nodes. -/
def delete_step (r : Recipe) (step : String) : Recipe :=
  if step ∈ r.nodes then removeNodes r (descendants r step) else r

/-- `Recipe.output_steps`: the nodes with no outgoing edge. -/
def output_steps (r : Recipe) : List String :=
  r.nodes.filter (fun n => (successors r n).isEmpty)

/-- `Recipe.input_steps`: the direct successors of `ROOT`. -/
def input_steps (r : Recipe) : List String :=
  successors r ROOT

end Recipe

/-- There is a non-empty directed path from `a` to `b` in the graph of
`r` (the reachability notion underlying `nx.ancestors` /
`nx.descendants`). -/
inductive Reaches (r : Recipe) : String → String → Prop
  | single {a b : String} : (a, b) ∈ r.edges → Reaches r a b
  | tail {a b c : String} : Reaches r a b → (b, c) ∈ r.edges → Reaches r a c

/-- The purge policy strings accepted by `filter_recipe`. -/
def purgeModes : List String := ["raise", "warn", "ignore"]

/-- The output-filter stage of `filter_recipe` (`utils/utils.py`):
keep the requested outputs, `ROOT`, and every ancestor of a requested
output; remove the rest. -/
def outputFiltered (r : Recipe) (output : List String) : Recipe :=
  let keep := Recipe.addNew [] (output ++ [ROOT] ++ output.flatMap (Recipe.ancestors r))
  r.removeNodes (r.nodes.filter (fun n => !keep.contains n))

/-- The option chosen for `(step, option)` survives the filters:
`include_parsed(step, o) and not exclude_parsed(step, o)`.  The parsed
include and exclude pattern lists of `patterns.py` are boolean
predicates over step/option pairs; the embedding takes these parsed
predicates directly. -/
def optionKept (includeP excludeP : String → String → Bool)
    (step option : String) : Bool :=
  includeP step option && !excludeP step option

/-- The option-filter loop of `filter_recipe`: for each non-root step
(in node order) replace its options by the ones surviving the filters;
a step losing every option raises under `on_purge_step="raise"`, logs
a warning under `"warn"`, and is passed over under `"ignore"`.
Warnings are collected as data.  The source also stashes the old
options under an `options_original` node attribute that nothing else
reads; it is not modelled. -/
def filterOptionsLoop (includeP excludeP : String → String → Bool)
    (onPurge : String) :
    List String → Recipe → List String → Except PyErr (Recipe × List String)
  | [], r, ws => .ok (r, ws)
  | s :: rest, r, ws =>
      if s = ROOT then filterOptionsLoop includeP excludeP onPurge rest r ws
      else
        let newOpts := (r.optsOf s).filter (optionKept includeP excludeP s)
        let r' := r.setOpts s newOpts
        if newOpts.isEmpty then
          if onPurge = "raise" then .error .valueError
          else if onPurge = "warn" then
            filterOptionsLoop includeP excludeP onPurge rest r'
              (ws ++ ["Excluding all options for step: " ++ s])
          else filterOptionsLoop includeP excludeP onPurge rest r' ws
        else filterOptionsLoop includeP excludeP onPurge rest r' ws

/-- The splice loop of `filter_recipe`: a step left with no options has
every (predecessor, successor) pair wired as a direct edge, and is
marked for removal; edges accumulate while the loop runs, and the
marked steps are removed after it. -/
def spliceLoop : List String → Recipe → List String → Recipe × List String
  | [], r, toRemove => (r, toRemove)
  | s :: rest, r, toRemove =>
      if s = ROOT then spliceLoop rest r toRemove
      else if (r.optsOf s).isEmpty then
        let newEdges :=
          (r.predecessors s).flatMap (fun src => (r.successors s).map (fun dst => (src, dst)))
        spliceLoop rest (r.addEdges newEdges) (toRemove ++ [s])
      else spliceLoop rest r toRemove

/-- `filter_recipe(recipe, output, include, exclude, on_purge_step)`
from `utils/utils.py`: validate the purge mode, default the output set
to the recipe's output steps, prune the non-ancestors of the outputs
(`nx.ancestors` raises on a node missing from the graph), filter each
remaining step's options, and splice out the steps left with no
options.  The returned recipe is an independent value (`deepcopy` in
the source); the second component collects the emitted warnings. -/
def filterRecipe (r : Recipe) (output : Option (List String))
    (includeP excludeP : String → String → Bool) (onPurge : String) :
    Except PyErr (Recipe × List String) :=
  if onPurge ∉ purgeModes then .error .valueError
  else
    let output := output.getD r.output_steps
    if output.any (fun o => !r.nodes.contains o) then .error .valueError
    else
      let r1 := outputFiltered r output
      match filterOptionsLoop includeP excludeP onPurge r1.nodes r1 [] with
      | .error e => .error e
      | .ok (r2, ws) =>
          let (r3, toRemove) := spliceLoop r2.nodes r2 []
          .ok (r3.removeNodes toRemove, ws)

/-- `cartesian_product` from `utils/utils.py` for a non-empty argument
list: the row-major cross product that `np.ix_` broadcasting followed
by `reshape(-1, la)` produces (the first array varies slowest).  The
zero-argument case is handled by the caller, where numpy raises. -/
def cartesianProduct : List (List String) → List (List String)
  | [] => [[]]
  | l :: ls => l.flatMap (fun x => (cartesianProduct ls).map (fun c => x :: c))

/-- `all_option_combinations` from `utils/utils.py`: one assignment per
member of the cross product of the non-root steps' option-name lists.
With no non-root step at all, `cartesian_product()` builds a size-0
array and calls `reshape(-1, 0)`, which numpy rejects (`ValueError`: a
`-1` dimension cannot be inferred when the known dimensions multiply
to 0), so that case raises. -/
def allOptionCombinations (r : Recipe) : Except PyErr (List Opts) :=
  let steps := r.nodes.filter (fun s => s ≠ ROOT)
  let optionLists := steps.map r.optsOf
  if steps.isEmpty then .error .valueError
  else .ok ((cartesianProduct optionLists).map (fun c => steps.zip c))

/-- Python's `<` on lists of strings: elementwise comparison, the
first non-equal pair decides, a strict prefix sorts first. -/
def seqLt : List String → List String → Bool
  | [], [] => false
  | [], _ :: _ => true
  | _ :: _, [] => false
  | a :: as, b :: bs =>
      if strLtB a b then true else if strLtB b a then false else seqLt as bs

/-- The sort relation of Python's `sorted` on lists of strings. -/
abbrev seqLe (a b : List String) : Prop := !seqLt b a = true

instance : DecidableRel seqLe :=
  fun a b => inferInstanceAs (Decidable (!seqLt b a = true))

/-- `sorted(layer)` in `execution_path_lazy`: Python sorts the layer's
sequences (lists of strings) lexicographically. -/
def sortLayer (layer : List (List String)) : List (List String) :=
  List.insertionSort seqLe layer

/-- The chain-merge walk of `execution_path_lazy`
(`utils/execution.py`): starting from a placed step, keep appending the
unique predecessor as long as the current step has exactly one
predecessor and that predecessor has exactly one successor.  The
source's `while` loop is given fuel (its walk visits distinct nodes of
a DAG, so `|nodes|` rounds reach the exit). -/
def chainMergeWalk (dag : Recipe) : Nat → String → List String → List String
  | 0, _, seq => seq
  | fuel + 1, cur, seq =>
      match dag.predecessors cur with
      | [p] =>
          if (dag.successors p).length = 1 then
            chainMergeWalk dag fuel p (seq ++ [p])
          else seq
      | _ => seq

/-- The inner `for step in candidates` loop of `execution_path_lazy`:
a candidate whose successors are all placed starts a merged sequence
and joins the layer (leaving the waitlist); otherwise it is
waitlisted. -/
def lazyInner (dag : Recipe) (placed : List String) :
    List String → List (List String) → List String →
    List (List String) × List String
  | [], layer, waitlist => (layer, waitlist)
  | step :: rest, layer, waitlist =>
      if step ∈ placed then lazyInner dag placed rest layer waitlist
      else if (dag.successors step).all (fun c => placed.contains c) then
        let seq := chainMergeWalk dag dag.nodes.length step [step]
        lazyInner dag placed rest (layer ++ [seq]) (waitlist.erase step)
      else lazyInner dag placed rest layer (waitlist ++ [step])

/-- The outer `while` loop of `execution_path_lazy`, with fuel for the
source's `while len(steps_in_layers) < len(dag)` loop.  Candidates are
the not-yet-placed predecessors of the last elements of the previous
layer's sequences, joined with the waitlist (a Python set, modelled as
a deduplicated list in generation order). -/
def lazyLoop (dag : Recipe) :
    Nat → List (List (List String)) → List String → List String →
    List (List (List String))
  | 0, layers, _, _ => layers
  | fuel + 1, layers, placed, waitlist =>
      if placed.length < dag.nodes.length then
        let lastLayer := layers.getLastD []
        let candGen :=
          (lastLayer.flatMap (fun node => dag.predecessors (node.getLastD ""))).filter
            (fun p => !placed.contains p)
        let candidates := Recipe.addNew (Recipe.addNew [] candGen) waitlist
        let (layer, waitlist') := lazyInner dag placed candidates [] waitlist
        let placed' := Recipe.addNew placed (layer.flatMap id)
        lazyLoop dag fuel (layers ++ [sortLayer layer]) placed' waitlist'
      else layers

/-- `execution_path_lazy` from `utils/execution.py`: start from the
output steps as the (chronologically last) layer, repeatedly prepend
the layers of ready predecessors with 1-to-1 chains merged, then
reverse the layer order and each merged sequence. -/
def executionPathLazy (r : Recipe) : List (List (List String)) :=
  let outputs := r.output_steps
  let layers0 := [outputs.map (fun s => [s])]
  let dag := r.removeNodes [ROOT]
  let final := lazyLoop dag (dag.nodes.length + 1) layers0 outputs []
  final.reverse.map (fun layer => layer.map List.reverse)

/-- The first (0-based) layer of a planner result containing a step. -/
def layerIndexOf (layers : List (List (List String))) (s : String) : Option Nat :=
  layers.findIdx? (fun layer => layer.any (fun seq => seq.contains s))

/-- `CachedExecutor._cache_match` (`executor/base.py`): whether a step
participates in caching.  `parse_element_pattern` turns the include
pattern into a predicate that is constantly false when the pattern is
`None` (`on_none_element_pattern=False`), and likewise for the exclude
pattern; a supplied pattern is its parsed predicate. -/
def cacheMatch (step : String) (inc exc : Option (String → Bool)) : Bool :=
  (match inc with
   | none => false
   | some p => p step)
  && !(match exc with
       | none => false
       | some p => p step)

/-- `CacheOnlyExecutor` (`executor/cacheonly.py`) with its main cache a
`FileCache` directory and its local cache the default `DictCache`.
`missing_policy` and `missing_default_value` are stored by
`__init__` exactly as in the source. -/
structure CacheOnlyExecutor (α : Type) where
  cache : List (FCFile α)
  localCache : DictCache α
  missing_policy : String
  missing_default_value : Option α

/-- `CachedExecutor._cache_get`: the main-cache read gated by the
cache include/exclude patterns; a non-participating step yields the
default without consulting the cache. -/
def cacheGet (e : CacheOnlyExecutor α) (step : String) (options : Opts)
    (default : Option α) (inc exc : Option (String → Bool)) :
    Except PyErr (Option α) :=
  if cacheMatch step inc exc then FileCache.get e.cache step options default
  else .ok default

/-- The `for step in output_steps` loop of
`CacheOnlyExecutor._execute_instance`: serve each requested output
from the local cache when present, otherwise from the gated main-cache
read with default `None`, copying a non-`None` result into the local
cache.  Note that `self.missing_policy` and
`self.missing_default_value` are never consulted. -/
def executeInstanceLoop (e : CacheOnlyExecutor α) (options : Opts)
    (inc exc : Option (String → Bool)) :
    List String → DictCache α → List (String × Option α) →
    Except PyErr (List (String × Option α) × DictCache α)
  | [], lc, out => .ok (out, lc)
  | step :: rest, lc, out =>
      match DictCache.contains lc step options with
      | .error e2 => .error e2
      | .ok true =>
          match DictCache.get lc step options none with
          | .error e2 => .error e2
          | .ok v =>
              executeInstanceLoop e options inc exc rest lc
                (dictInsert out step (some v))
      | .ok false =>
          match cacheGet e step options none inc exc with
          | .error e2 => .error e2
          | .ok stepOutput =>
              let out' := dictInsert out step stepOutput
              match stepOutput with
              | some v =>
                  match DictCache.set lc step options v with
                  | .error e2 => .error e2
                  | .ok lc' => executeInstanceLoop e options inc exc rest lc' out'
              | none => executeInstanceLoop e options inc exc rest lc out'

/-- `CacheOnlyExecutor._execute_instance` for one options-assignment:
returns the output mapping and the updated local cache. -/
def executeInstance (e : CacheOnlyExecutor α) (options : Opts)
    (outputSteps : List String) (inc exc : Option (String → Bool)) :
    Except PyErr (List (String × Option α) × DictCache α) :=
  executeInstanceLoop e options inc exc outputSteps e.localCache []

/-- The diamond recipe of the planner property: `A` is an input step
(child of `ROOT`) and `A→B`, `A→C`, `B→D`, `C→D`. -/
def diamond : Recipe :=
  ⟨[ROOT, "A", "B", "C", "D"],
   [(ROOT, "A"), ("A", "B"), ("A", "C"), ("B", "D"), ("C", "D")],
   [("A", ["a"]), ("B", ["b"]), ("C", ["c"]), ("D", ["d"])]⟩

/-- A two-step chain `ROOT → a → b`. -/
def chainAB : Recipe :=
  ⟨[ROOT, "a", "b"], [(ROOT, "a"), ("a", "b")], [("a", ["x"]), ("b", ["y"])]⟩

/-- Three concrete completed cache files: two for step `s1` (options
`a` and `b`, written under different sibling-step assignments, hence
different options hashes) and one for step `s2`. -/
def sampleFiles : List (FCFile Nat) :=
  [⟨"s1", "a", "s1=a___s2=x", "100", "AAAAAAA", ("s1", [("s1", "a"), ("s2", "x")]), 1⟩,
   ⟨"s1", "b", "s1=b___s2=y", "101", "BBBBBBB", ("s1", [("s1", "b"), ("s2", "y")]), 2⟩,
   ⟨"s2", "x", "s1=a___s2=x", "102", "CCCCCCC", ("s2", [("s1", "a"), ("s2", "x")]), 3⟩]

/-- A dictionary cache holding one entry for step `s1`, as
`DictCache.set "s1" {s1: a}` stores it. -/
def sampleDict : DictCache Nat :=
  ⟨[("s1=a___s1=a", (("s1", [("s1", "a")]), 1))]⟩

/-- C4.  The claim states that a `get` on an absent key returns the
caller-supplied default for *every* Cache implementation.  That holds
for the File Cache (first conjunct, for every default).  It fails for
the Dict Cache: its miss branch unpacks the default itself
(`key, item = self.dict.get(formatted_key, default)`), which raises
`TypeError` for the default `None` — and never returns the default —
contradicting the documented contract of `Cache.get`
("Default value to return if path is not in cache"). -/
theorem dictCacheGetMissRaisesTypeError :
    (∀ d : Option Nat,
      FileCache.get ([] : List (FCFile Nat)) "s" [("s", "a")] d = .ok d) ∧
    (∀ d : Option Nat,
      DictCache.get (DictCache.empty Nat) "s" [("s", "a")] d = .error .typeError) :=
  ⟨fun _ => rfl, fun _ => rfl⟩

/-- C5.  `delete_step` computes `nx.descendants(self.steps, step)` —
which excludes `step` itself — and removes exactly those nodes: on the
chain `ROOT → a → b`, deleting `"a"` removes the descendant `"b"` but
leaves `"a"` (and its edge from `ROOT`) in the graph, contradicting
the claim (and the source's own log message "Deleted steps: {step},
{descendants}") that the step itself is removed. -/
theorem deleteStepKeepsTheStepItself :
    (Recipe.delete_step chainAB "a").nodes = [ROOT, "a"] ∧
    "a" ∈ (Recipe.delete_step chainAB "a").nodes ∧
    (Recipe.delete_step chainAB "a").edges = [(ROOT, "a")] := by
  refine ⟨?_, ?_, ?_⟩ <;> decide

/-- C6.  File Cache: `delete_all("s1")` removes both `s1` entries
regardless of the sibling assignments encoded in their options hashes,
and `delete_all("s1", "a")` removes exactly the entry whose own chosen
option is `a`, leaving the rest.  Dict Cache: `delete_all` with an
option evaluates `parse_options(format_options({step: option}))[step]`,
indexing the *list* returned by `parse_options` with a string, so it
raises `TypeError` before deleting anything — contradicting the
documented `Cache.delete_all` contract (and `parse_options`' own
`-> Options` annotation); only the `option=None` form works. -/
theorem deleteAllByStepAndOption :
    FileCache.delete_all sampleFiles "s1" none = [sampleFiles.get ⟨2, by decide⟩] ∧
    FileCache.delete_all sampleFiles "s1" (some "a") =
      [sampleFiles.get ⟨1, by decide⟩, sampleFiles.get ⟨2, by decide⟩] ∧
    DictCache.delete_all sampleDict "s1" (some "a") = .error .typeError ∧
    DictCache.delete_all sampleDict "s1" none = .ok (DictCache.empty Nat) := by
  refine ⟨?_, ?_, ?_, ?_⟩ <;> decide

/-- C7.  The cache-only executor stores `missing_policy` and
`missing_default_value` but `_execute_instance` never reads them: for
a requested output step absent from both the local and the main cache
it always returns `None` for that step — it does not raise under
`missing_policy="raise"`, does not warn, and does not return the
configured `missing_default_value` — for every policy string and every
configured default.  (It does perform no computation: the executor
model invokes no step implementation at all.) -/
theorem cacheOnlyMissingPolicyIgnored :
    ∀ (policy : String) (dv : Option Nat),
      executeInstance
        (⟨[], DictCache.empty Nat, policy, dv⟩ : CacheOnlyExecutor Nat)
        [("s", "a")] ["s"] (some (fun _ => true)) none =
      .ok ([("s", none)], DictCache.empty Nat) :=
  fun _ _ => rfl

/-- C8.  On the diamond `A→B`, `A→C`, `B→D`, `C→D` the backward (lazy)
planner produces the layers `[[A]], [[B], [C]], [[D]]`: `B` and `C`
sit in the layer of index 1, strictly before the layer of index 2
holding `D`, so `D` is never placed before either. -/
theorem lazyPlannerDiamondOrder :
    executionPathLazy diamond = [[["A"]], [["B"], ["C"]], [["D"]]] ∧
    ∃ i j k,
      layerIndexOf (executionPathLazy diamond) "B" = some i ∧
      layerIndexOf (executionPathLazy diamond) "C" = some j ∧
      layerIndexOf (executionPathLazy diamond) "D" = some k ∧
      i < k ∧ j < k :=
  ⟨by decide, 1, 1, 2, by decide, by decide, by decide, by decide, by decide⟩

theorem charListLt_irrefl : ∀ l : List Char, charListLt l l = false := by
  intro l
  induction l with
  | nil => rfl
  | cons a as ih => simp [charListLt, lt_irrefl, ih]

theorem charListLt_asymm : ∀ {a b : List Char},
    charListLt a b = true → charListLt b a = false := by
  intro a
  induction a with
  | nil => intro b h; cases b <;> simp_all [charListLt]
  | cons x xs ih =>
      intro b h
      cases b with
      | nil => simp [charListLt] at h
      | cons y ys =>
          simp only [charListLt] at h ⊢
          by_cases hxy : x < y
          · have : ¬y < x := lt_asymm hxy
            simp [hxy, this]
          · by_cases hyx : y < x
            · simp [hxy, hyx] at h
            · simp only [hxy, hyx, if_false] at h ⊢
              simp [ih h]

theorem charListLt_trans : ∀ {a b c : List Char},
    charListLt a b = true → charListLt b c = true → charListLt a c = true := by
  intro a
  induction a with
  | nil =>
      intro b c hab hbc
      cases b <;> cases c <;> simp_all [charListLt]
  | cons x xs ih =>
      intro b c hab hbc
      cases b with
      | nil => simp [charListLt] at hab
      | cons y ys =>
          cases c with
          | nil => simp [charListLt] at hbc
          | cons z zs =>
              simp only [charListLt] at hab hbc ⊢
              by_cases hxy : x < y <;> by_cases hyz : y < z
              · simp [lt_trans hxy hyz]
              · by_cases hzy : z < y
                · simp [hyz, hzy] at hbc
                · have hyz' : y = z := le_antisymm (not_lt.mp hzy) (not_lt.mp hyz)
                  subst hyz'
                  simp [hxy]
              · by_cases hyx : y < x
                · simp [hxy, hyx] at hab
                · have hxy' : x = y := le_antisymm (not_lt.mp hyx) (not_lt.mp hxy)
                  subst hxy'
                  simp [hyz]
              · by_cases hyx : y < x
                · simp [hxy, hyx] at hab
                · by_cases hzy : z < y
                  · simp [hyz, hzy] at hbc
                  · have h1 : x = y := le_antisymm (not_lt.mp hyx) (not_lt.mp hxy)
                    have h2 : y = z := le_antisymm (not_lt.mp hzy) (not_lt.mp hyz)
                    subst h1; subst h2
                    simp only [hxy, hyz, if_false] at hab hbc ⊢
                    simp_all [ih hab hbc]

theorem charListLt_eq_of_not_lt : ∀ {a b : List Char},
    charListLt a b = false → charListLt b a = false → a = b := by
  intro a
  induction a with
  | nil => intro b h _; cases b <;> simp_all [charListLt]
  | cons x xs ih =>
      intro b hab hba
      cases b with
      | nil => simp [charListLt] at hba
      | cons y ys =>
          simp only [charListLt] at hab hba
          by_cases hxy : x < y
          · simp [hxy] at hab
          · by_cases hyx : y < x
            · simp [hxy, hyx] at hba
            · have h1 : x = y := le_antisymm (not_lt.mp hyx) (not_lt.mp hxy)
              subst h1
              simp only [lt_irrefl, if_false] at hab hba
              simp_all [ih hab hba]

theorem strData_inj {a b : String} (h : a.data = b.data) : a = b := by
  cases a; cases b; exact congrArg String.mk h

instance : IsTotal String strLe := by
  constructor
  intro a b
  by_cases h : charListLt b.data a.data = true
  · right
    have := charListLt_asymm h
    simp [strLe, strLeB, strLtB, this]
  · left
    simp only [Bool.not_eq_true] at h
    simp [strLe, strLeB, strLtB, h]

instance : IsTrans String strLe := by
  constructor
  intro a b c hab hbc
  simp only [strLe, strLeB, strLtB, Bool.not_eq_true'] at hab hbc ⊢
  by_cases h : charListLt c.data a.data = true
  · exfalso
    by_cases h1 : charListLt b.data c.data = true
    · have : charListLt b.data a.data = true := charListLt_trans h1 h
      simp [this] at hab
    · have hbc' : b.data = c.data :=
        charListLt_eq_of_not_lt (by simpa using h1) hbc
      rw [← hbc'] at h
      simp [h] at hab
  · simpa using h

instance : IsAntisymm String strLe := by
  constructor
  intro a b hab hba
  simp only [strLe, strLeB, strLtB, Bool.not_eq_true'] at hab hba
  exact strData_inj (charListLt_eq_of_not_lt hba hab)

/-- A stable sort commutes with filtering. -/
theorem insertionSort_filter (q : String → Bool) (xs : List String) :
    List.insertionSort strLe (xs.filter q) =
      (List.insertionSort strLe xs).filter q := by
  refine List.eq_of_perm_of_sorted ?_ (List.sorted_insertionSort strLe _) ?_
  · exact (List.perm_insertionSort strLe (xs.filter q)).trans
      ((List.perm_insertionSort strLe xs).filter q).symm
  · exact (List.sorted_insertionSort strLe xs).filter q

theorem lookup_filter_ne {β : Type} (l : List (String × β)) (s t : String)
    (h : t ≠ s) :
    (l.filter (fun p => p.1 != s)).lookup t = l.lookup t := by
  induction l with
  | nil => rfl
  | cons kv tl ih =>
      obtain ⟨k, v⟩ := kv
      by_cases hk : k = s
      · subst hk
        have ht : (t == k) = false := by simpa using h
        simp [List.filter, List.lookup, ht, ih]
      · have : (k != s) = true := by simpa using hk
        simp only [List.filter, this, List.lookup]
        by_cases htk : t == k
        · simp [htk]
        · simp only [Bool.not_eq_true] at htk
          simp [htk, ih]

theorem map_fst_filter {β : Type} (l : List (String × β)) (s : String) :
    (l.filter (fun p => p.1 != s)).map Prod.fst =
      (l.map Prod.fst).filter (fun x => x != s) := by
  induction l with
  | nil => rfl
  | cons kv tl ih =>
      by_cases hk : kv.1 != s <;> simp [List.filter, hk, ih]

/-- Removing a step whose chosen option is the no-op option from an
assignment does not change the canonical serialization: the sorted,
no-op-excluding `format_options` output is identical. -/
theorem formatOptions_filter_noop (options : Opts) (s : String)
    (hs : options.lookup s = some NOOP) :
    formatOptions (options.filter (fun p => p.1 != s)) false =
      formatOptions options false := by
  unfold formatOptions
  have hkeys : sortedKeys (options.filter (fun p => p.1 != s)) =
      (sortedKeys options).filter (fun x => x != s) := by
    unfold sortedKeys
    rw [map_fst_filter, insertionSort_filter]
  rw [hkeys, List.filter_filter]
  have hfil :
      (sortedKeys options).filter
          (fun a =>
            ((options.filter (fun p => p.1 != s)).lookup a != some NOOP || false) &&
              (a != s)) =
        (sortedKeys options).filter
          (fun x => options.lookup x != some NOOP || false) := by
    refine List.filter_congr ?_
    intro x _
    by_cases hx : x = s
    · subst hx
      simp [hs]
    · rw [lookup_filter_ne _ _ _ hx]
      simp [hx]
  rw [hfil]
  refine congrArg _ (List.map_congr_left ?_)
  intro x hx
  have hxs : x ≠ s := by
    intro hcon
    subst hcon
    simp [hs] at hx
  rw [lookup_filter_ne _ _ _ hxs]

/-- C9.  A step `s` left at the designated no-op option does not
perturb the cache keys of a different step `t`: both the canonical
dictionary key (`format_key`) and the file-cache basename hash triple
(`_format_basename`) computed for `(t, O)` are unchanged when `s` is
removed from the assignment. -/
theorem noopStepDoesNotPerturbKeys (options : Opts) (t s : String)
    (hst : s ≠ t) (hs : options.lookup s = some NOOP)
    (ht : (options.lookup t).isSome) :
    formatKey t (options.filter (fun p => p.1 != s)) = formatKey t options ∧
    formatBasenameTriple t (options.filter (fun p => p.1 != s)) =
      formatBasenameTriple t options := by
  have hlook : (options.filter (fun p => p.1 != s)).lookup t = options.lookup t :=
    lookup_filter_ne _ _ _ (Ne.symm hst)
  obtain ⟨v, hv⟩ := Option.isSome_iff_exists.mp ht
  constructor
  · unfold formatKey
    rw [hlook, hv, formatOptions_filter_noop options s hs]
  · unfold formatBasenameTriple
    rw [hlook, hv, formatOptions_filter_noop options s hs]

/-- Witness for C9 at a concrete assignment: `t` chooses `x`, `s`
chooses the no-op option. -/
theorem noopStepDoesNotPerturbKeys_witness :
    formatKey "t" ([("t", "x"), ("s", "NOOP")].filter (fun p => p.1 != "s")) =
      formatKey "t" [("t", "x"), ("s", "NOOP")] ∧
    formatBasenameTriple "t" ([("t", "x"), ("s", "NOOP")].filter (fun p => p.1 != "s")) =
      formatBasenameTriple "t" [("t", "x"), ("s", "NOOP")] :=
  noopStepDoesNotPerturbKeys [("t", "x"), ("s", "NOOP")] "t" "s"
    (by decide) (by decide) (by decide)

theorem sum_map_const_nat {β : Type} (l : List β) (n : Nat) :
    (List.map (fun _ => n) l).sum = l.length * n := by
  induction l with
  | nil => simp
  | cons y ys ih =>
      simp only [List.map_cons, List.sum_cons, ih, List.length_cons]
      ring

theorem cartesianProduct_length : ∀ L : List (List String),
    (cartesianProduct L).length = (L.map List.length).prod := by
  intro L
  induction L with
  | nil => rfl
  | cons l ls ih =>
      simp only [cartesianProduct, List.length_flatMap, List.length_map,
        List.map_map, List.map_cons, List.prod_cons]
      have h1 : (List.map (List.length ∘ fun x => List.map (fun c => x :: c) (cartesianProduct ls)) l) =
          List.map (fun _ => (cartesianProduct ls).length) l := by
        refine List.map_congr_left ?_
        intro x _
        simp
      rw [h1, sum_map_const_nat, ih]

theorem mem_cartesianProduct : ∀ (L : List (List String)) (c : List String),
    c ∈ cartesianProduct L ↔ List.Forall₂ (fun x l => x ∈ l) c L := by
  intro L
  induction L with
  | nil =>
      intro c
      constructor
      · intro h
        simp only [cartesianProduct, List.mem_singleton] at h
        subst h
        exact List.Forall₂.nil
      · intro h
        cases h
        simp [cartesianProduct]
  | cons l ls ih =>
      intro c
      constructor
      · intro h
        simp only [cartesianProduct, List.mem_flatMap, List.mem_map] at h
        obtain ⟨x, hx, c', hc', rfl⟩ := h
        exact List.Forall₂.cons hx ((ih c').mp hc')
      · intro h
        cases h with
        | cons hx hc' =>
            simp only [cartesianProduct, List.mem_flatMap, List.mem_map]
            exact ⟨_, hx, _, (ih _).mpr hc', rfl⟩

theorem zip_mem_of_forall₂ (f : String → List String) :
    ∀ (steps c : List String),
      List.Forall₂ (fun x l => x ∈ l) c (steps.map f) →
      ∀ p ∈ steps.zip c, p.2 ∈ f p.1 := by
  intro steps
  induction steps with
  | nil => intro c _ p hp; simp at hp
  | cons s rest ih =>
      intro c h p hp
      cases c with
      | nil => simp at hp
      | cons x xs =>
          simp only [List.map_cons] at h
          cases h with
          | cons hx hxs =>
              simp only [List.zip_cons_cons, List.mem_cons] at hp
              rcases hp with rfl | hp
              · exact hx
              · exact ih xs hxs p hp

/-- The claim of C3, amended with the hypothesis that at least one
non-root step exists: `all_option_combinations` then returns exactly
one assignment per member of the cross product of the steps' option
sets, and each assignment lists exactly the non-root steps as its
keys, each mapped to an option of that step. -/
theorem allOptionCombinations_spec (r : Recipe)
    (hne : r.nodes.filter (fun s => s ≠ ROOT) ≠ [])
    (hnd : r.nodes.Nodup)
    (_hopts : ∀ s ∈ r.nodes.filter (fun s => s ≠ ROOT), r.optsOf s ≠ []) :
    ∃ l, allOptionCombinations r = .ok l ∧
      l.length =
        ((r.nodes.filter (fun s => s ≠ ROOT)).map
          (fun s => (r.optsOf s).length)).prod ∧
      ∀ a ∈ l, a.map Prod.fst = r.nodes.filter (fun s => s ≠ ROOT) ∧
        (a.map Prod.fst).Nodup ∧
        ∀ p ∈ a, p.2 ∈ r.optsOf p.1 := by
  refine ⟨(cartesianProduct ((r.nodes.filter (fun s => s ≠ ROOT)).map r.optsOf)).map
      (fun c => (r.nodes.filter (fun s => s ≠ ROOT)).zip c), ?_, ?_, ?_⟩
  · unfold allOptionCombinations
    simp only [List.isEmpty_iff]
    rw [if_neg hne]
  · simp only [List.length_map, cartesianProduct_length, List.map_map]
    rfl
  · intro a ha
    simp only [List.mem_map] at ha
    obtain ⟨c, hc, rfl⟩ := ha
    have hfa := (mem_cartesianProduct _ c).mp hc
    have hlen : c.length = (r.nodes.filter (fun s => s ≠ ROOT)).length := by
      have := hfa.length_eq
      simpa using this
    have hkeys : ((r.nodes.filter (fun s => s ≠ ROOT)).zip c).map Prod.fst =
        r.nodes.filter (fun s => s ≠ ROOT) :=
      List.map_fst_zip _ _ (le_of_eq hlen.symm)
    refine ⟨hkeys, ?_, ?_⟩
    · rw [hkeys]
      exact hnd.filter _
    · exact zip_mem_of_forall₂ r.optsOf _ c hfa

/-- Counterexample to C3 as stated: the fresh recipe (only `ROOT`, no
non-root step) vacuously satisfies the claim's premise, and the empty
product over no steps is 1, so the claim requires exactly one (empty)
assignment — but `all_option_combinations` raises: `cartesian_product`
with no arrays builds a size-0 array and `reshape(-1, 0)` is a numpy
`ValueError` (a `-1` dimension cannot be inferred when the known
dimensions multiply to 0). -/
theorem allOptionCombinationsEmptyRaises :
    allOptionCombinations Recipe.empty = .error .valueError := by decide

/-- Witness for the amended C3 on the chain recipe with steps
`a` (one option) and `b` (one option). -/
theorem allOptionCombinations_spec_witness :
    ∃ l, allOptionCombinations chainAB = .ok l ∧
      l.length =
        ((chainAB.nodes.filter (fun s => s ≠ ROOT)).map
          (fun s => (chainAB.optsOf s).length)).prod ∧
      ∀ a ∈ l, a.map Prod.fst = chainAB.nodes.filter (fun s => s ≠ ROOT) ∧
        (a.map Prod.fst).Nodup ∧
        ∀ p ∈ a, p.2 ∈ chainAB.optsOf p.1 :=
  allOptionCombinations_spec chainAB (by decide) (by decide) (by decide)

/-- A computation of the `Except` monad that is `ok` by inspection
carries an `ok` value. -/
theorem exceptExistsOk {ε β : Type} (e : Except ε β) (h : e.isOk = true) :
    ∃ b, e = .ok b := by
  cases e with
  | error _ => simp [Except.isOk, Except.toBool] at h
  | ok b => exact ⟨b, rfl⟩

/-- The claim of C10, amended: every keyed cache operation of both
implementations raises `KeyError` when the queried step is absent from
the options-assignment, because key derivation indexes
`options[step]`; when the step is present the key derivation cannot
fail, and the File Cache's `set`/`get`/`contains`/`delete` and the
Dict Cache's `set` and `contains` are total.  (The Dict Cache's `get`
is not total on a present step — its miss branch raises `TypeError`,
see C4 — and its `delete` raises `KeyError` on a missing entry, as
`del` on a Python dict does; the counterexample below records the
latter.) -/
theorem cacheOpsRequireStepInAssignment {α : Type} (step : String)
    (options : Opts) (c : DictCache α) (fs : List (FCFile α)) (v : α)
    (d : Option α) (ts sd : String) (cl : Bool) :
    (options.lookup step = none →
      c.set step options v = .error .keyError ∧
      c.get step options d = .error .keyError ∧
      c.contains step options = .error .keyError ∧
      c.delete step options = .error .keyError ∧
      FileCache.set fs step options v ts sd cl = .error .keyError ∧
      FileCache.get fs step options d = .error .keyError ∧
      FileCache.contains fs step options = .error .keyError ∧
      FileCache.delete fs step options = .error .keyError) ∧
    ((options.lookup step).isSome →
      (∃ k, formatKey step options = .ok k) ∧
      (∃ r, c.set step options v = .ok r) ∧
      (∃ b, c.contains step options = .ok b) ∧
      (∃ r, FileCache.set fs step options v ts sd cl = .ok r) ∧
      (∃ r, FileCache.get fs step options d = .ok r) ∧
      (∃ b, FileCache.contains fs step options = .ok b) ∧
      (∃ r, FileCache.delete fs step options = .ok r)) := by
  constructor
  · intro h
    refine ⟨?_, ?_, ?_, ?_, ?_, ?_, ?_, ?_⟩ <;>
      simp [DictCache.set, DictCache.get, DictCache.contains, DictCache.delete,
        FileCache.set, FileCache.get, FileCache.contains, FileCache.delete,
        mostRecentFile, formatKey, formatBasenameTriple, h, Except.map]
  · intro h
    obtain ⟨o, ho⟩ := Option.isSome_iff_exists.mp h
    refine ⟨exceptExistsOk _ ?_, exceptExistsOk _ ?_, exceptExistsOk _ ?_,
      exceptExistsOk _ ?_, exceptExistsOk _ ?_, exceptExistsOk _ ?_,
      exceptExistsOk _ ?_⟩ <;>
      simp [DictCache.set, DictCache.contains,
        FileCache.set, FileCache.get, FileCache.contains, FileCache.delete,
        mostRecentFile, formatKey, formatBasenameTriple, ho, Except.map,
        Except.isOk, Except.toBool]

/-- Witness for the amended C10: with `step = "s"` absent from the
empty assignment every operation raises `KeyError`, and with `"s"`
present in `{s: a}` the key derivation and the listed operations
succeed. -/
theorem cacheOpsRequireStepInAssignment_witness :
    (([] : Opts).lookup "s" = none ∧
      (DictCache.empty Nat).set "s" [] 0 = .error .keyError ∧
      (DictCache.empty Nat).get "s" [] none = .error .keyError ∧
      (DictCache.empty Nat).contains "s" [] = .error .keyError ∧
      (DictCache.empty Nat).delete "s" [] = .error .keyError ∧
      FileCache.set ([] : List (FCFile Nat)) "s" [] 0 "1" "A" true = .error .keyError ∧
      FileCache.get ([] : List (FCFile Nat)) "s" [] none = .error .keyError ∧
      FileCache.contains ([] : List (FCFile Nat)) "s" [] = .error .keyError ∧
      FileCache.delete ([] : List (FCFile Nat)) "s" [] = .error .keyError) ∧
    ((([("s", "a")] : Opts).lookup "s").isSome ∧
      (∃ k, formatKey "s" [("s", "a")] = .ok k) ∧
      (∃ r, (DictCache.empty Nat).set "s" [("s", "a")] 0 = .ok r) ∧
      (∃ b, (DictCache.empty Nat).contains "s" [("s", "a")] = .ok b) ∧
      (∃ r, FileCache.set ([] : List (FCFile Nat)) "s" [("s", "a")] 0 "1" "A" true = .ok r) ∧
      (∃ r, FileCache.get ([] : List (FCFile Nat)) "s" [("s", "a")] none = .ok r) ∧
      (∃ b, FileCache.contains ([] : List (FCFile Nat)) "s" [("s", "a")] = .ok b) ∧
      (∃ r, FileCache.delete ([] : List (FCFile Nat)) "s" [("s", "a")] = .ok r)) :=
  ⟨⟨by decide,
    (cacheOpsRequireStepInAssignment "s" [] (DictCache.empty Nat)
      ([] : List (FCFile Nat)) 0 none "1" "A" true).1 (by decide)⟩,
   ⟨by decide,
    (cacheOpsRequireStepInAssignment "s" [("s", "a")] (DictCache.empty Nat)
      ([] : List (FCFile Nat)) 0 none "1" "A" true).2 (by decide)⟩⟩

/-- Counterexample to C10 as stated: `DictCache.delete` is *not* total
when the step is present in the assignment — `del` on the underlying
dict raises `KeyError` when the cache holds no entry for the key. -/
theorem dictCacheDeleteMissingEntryRaises :
    (DictCache.empty Nat).delete "s" [("s", "a")] = .error .keyError := by decide

/-- The strict lexicographic order on (timestamp, seed) string pairs:
the resolution order of the claim ("lexicographically-latest
(timestamp, seed)"). -/
def tsSeedLt (a b : String × String) : Prop :=
  strLtB a.1 b.1 = true ∨ (a.1 = b.1 ∧ strLtB a.2 b.2 = true)

instance (a b : String × String) : Decidable (tsSeedLt a b) := by
  unfold tsSeedLt
  infer_instance

theorem charListLt_append_iff :
    ∀ (A B u v : List Char), A.length = B.length →
      (charListLt (A ++ u) (B ++ v) = true ↔
        (charListLt A B = true ∨ (A = B ∧ charListLt u v = true))) := by
  intro A
  induction A with
  | nil =>
      intro B u v hlen
      cases B with
      | nil => simp [charListLt]
      | cons b bs => simp at hlen
  | cons a as ih =>
      intro B u v hlen
      cases B with
      | nil => simp at hlen
      | cons b bs =>
          simp only [List.length_cons, Nat.succ.injEq] at hlen
          simp only [List.cons_append, charListLt]
          by_cases hab : a < b
          · simp [hab]
          · by_cases hba : b < a
            · have : a ≠ b := fun hcon => by subst hcon; exact lt_irrefl a hba
              simp [hab, hba, this]
            · have heq : a = b := le_antisymm (not_lt.mp hba) (not_lt.mp hab)
              subst heq
              simp only [if_neg hab, List.cons.injEq, true_and]
              exact ih bs u v hlen

/-- Dropping a shared prefix does not change a lexicographic
comparison. -/
theorem charListLt_strip :
    ∀ (P u v : List Char), charListLt (P ++ u) (P ++ v) = charListLt u v := by
  intro P u v
  induction P with
  | nil => rfl
  | cons p ps ih => simp [charListLt, lt_irrefl, ih]

theorem strLtB_ne {a b : String} (h : strLtB a b = true) : a ≠ b := by
  intro hcon
  subst hcon
  simp [strLtB, charListLt_irrefl] at h

theorem strData_eq_iff {a b : String} : a.data = b.data ↔ a = b :=
  ⟨strData_inj, fun h => by rw [h]⟩

/-- Comparing two full file names that share a basename: with
equal-length timestamp strings (`time_ns` renders 19 digits
throughout the source's era) and equal-length seeds (always 7
characters), the file-name order is exactly the lexicographic order
on the (timestamp, seed) pairs. -/
theorem strLtB_fname_iff (b m1 m2 e ts1 sd1 ts2 sd2 : String)
    (hts : ts1.length = ts2.length) (hsd : sd1.length = sd2.length) :
    (strLtB (b ++ m1 ++ ts1 ++ m2 ++ sd1 ++ e) (b ++ m1 ++ ts2 ++ m2 ++ sd2 ++ e) = true ↔
      tsSeedLt (ts1, sd1) (ts2, sd2)) := by
  unfold strLtB tsSeedLt
  simp only [String.data_append, List.append_assoc]
  rw [charListLt_strip, charListLt_strip,
    charListLt_append_iff ts1.data ts2.data _ _ hts,
    charListLt_strip,
    charListLt_append_iff sd1.data sd2.data _ _ hsd]
  simp only [charListLt_irrefl, Bool.false_eq_true, and_false, or_false]
  exact or_congr Iff.rfl (and_congr strData_eq_iff Iff.rfl)

theorem strLe_refl (a : String) : strLe a a := by
  simp [strLe, strLeB, strLtB, charListLt_irrefl]

instance {α : Type} : IsTotal (FCFile α) nameGe :=
  ⟨fun f g => total_of strLe g.fname f.fname⟩

instance {α : Type} : IsTrans (FCFile α) nameGe :=
  ⟨fun _ _ _ hab hbc => trans_of strLe hbc hab⟩

theorem basename_eq_of_matches {α : Type} {f g : FCFile α}
    {triple : String × String × String}
    (hf : f.matchesKey triple = true) (hg : g.matchesKey triple = true) :
    f.basename = g.basename := by
  simp only [FCFile.matchesKey, Bool.and_eq_true, beq_iff_eq] at hf hg
  unfold FCFile.basename
  rw [hf.1.1, hf.1.2, hf.2, hg.1.1, hg.1.2, hg.2]

theorem fname_lt_iff_pairs {α : Type} {f g : FCFile α}
    (hbase : f.basename = g.basename)
    (hts : f.ts.length = g.ts.length) (hsd : f.seed.length = g.seed.length) :
    (strLtB f.fname g.fname = true ↔
      tsSeedLt (f.ts, f.seed) (g.ts, g.seed)) := by
  unfold FCFile.fname
  rw [hbase]
  exact strLtB_fname_iff g.basename "___ts-" "___seed-" ".pickle" f.ts f.seed g.ts g.seed hts hsd

theorem sortDesc_head {α : Type} (fs : List (FCFile α)) (f : FCFile α)
    (t : List (FCFile α)) (h : sortDescByName fs = f :: t) :
    f ∈ fs ∧ ∀ g ∈ fs, strLeB g.fname f.fname = true := by
  have hperm : List.Perm (sortDescByName fs) fs := List.perm_insertionSort nameGe fs
  rw [h] at hperm
  have hsorted : List.Sorted nameGe (f :: t) := by
    have hsi : List.Sorted nameGe (sortDescByName fs) :=
      List.sorted_insertionSort (@nameGe α) fs
    rwa [h] at hsi
  refine ⟨hperm.mem_iff.mp (List.mem_cons_self f t), ?_⟩
  intro g hg
  have hg' : g ∈ f :: t := hperm.symm.mem_iff.mp hg
  rcases List.mem_cons.mp hg' with rfl | hgt
  · exact strLe_refl g.fname
  · exact List.rel_of_sorted_cons hsorted g hgt

/-- Among the files matching a key, a file whose (timestamp, seed)
pair strictly dominates every other matching file's pair (under equal
string lengths) is the one `_get_most_recent_file` returns. -/
theorem mostRecentFile_dominant {α : Type} (fs : List (FCFile α))
    (step : String) (options : Opts) (triple : String × String × String)
    (f : FCFile α)
    (htriple : formatBasenameTriple step options = .ok triple)
    (hmem : f ∈ fs) (hmatch : f.matchesKey triple = true)
    (hdom : ∀ g ∈ fs, g.matchesKey triple = true → g ≠ f →
      tsSeedLt (g.ts, g.seed) (f.ts, f.seed))
    (hlen : ∀ g ∈ fs, g.matchesKey triple = true →
      g.ts.length = f.ts.length ∧ g.seed.length = f.seed.length) :
    mostRecentFile fs step options = .ok (some f) := by
  unfold mostRecentFile
  rw [htriple]
  simp only [Except.map]
  have hfM : f ∈ fs.filter (fun x => x.matchesKey triple) :=
    List.mem_filter.mpr ⟨hmem, hmatch⟩
  cases hs : sortDescByName (fs.filter (fun x => x.matchesKey triple)) with
  | nil =>
      exfalso
      have hmemsort : f ∈ sortDescByName (fs.filter (fun x => x.matchesKey triple)) :=
        (List.perm_insertionSort (@nameGe α) _).symm.mem_iff.mp hfM
      rw [hs] at hmemsort
      simp at hmemsort
  | cons h0 t0 =>
      obtain ⟨hh0M, hh0max⟩ := sortDesc_head _ h0 t0 hs
      have hh0fs : h0 ∈ fs := (List.mem_filter.mp hh0M).1
      have hh0match : h0.matchesKey triple = true := (List.mem_filter.mp hh0M).2
      have heq : h0 = f := by
        by_contra hne
        have hlt : tsSeedLt (h0.ts, h0.seed) (f.ts, f.seed) :=
          hdom h0 hh0fs hh0match hne
        have hbase : h0.basename = f.basename :=
          basename_eq_of_matches hh0match hmatch
        have hlens := hlen h0 hh0fs hh0match
        have hfnlt : strLtB h0.fname f.fname = true :=
          (fname_lt_iff_pairs hbase hlens.1 hlens.2).mpr hlt
        have hle : strLeB f.fname h0.fname = true := hh0max f hfM
        simp only [strLeB, hfnlt] at hle
        exact Bool.false_ne_true hle
      rw [heq]

theorem matchesKey_self {α : Type} (triple : String × String × String)
    (ts sd : String) (key : String × Opts) (v : α) :
    (FCFile.mk triple.1 triple.2.1 triple.2.2 ts sd key v).matchesKey triple = true := by
  simp [FCFile.matchesKey]

/-- `set` on a state holding no file of the key just appends the new
completed file: the cleanup pass finds nothing older to unlink. -/
theorem fileCacheSet_fresh {α : Type} (fs : List (FCFile α)) (step : String)
    (options : Opts) (v : α) (ts sd : String)
    (triple : String × String × String)
    (htriple : formatBasenameTriple step options = .ok triple)
    (hfresh : ∀ g ∈ fs, g.matchesKey triple = false) :
    FileCache.set fs step options v ts sd true =
      .ok (fs ++ [⟨triple.1, triple.2.1, triple.2.2, ts, sd, (step, options), v⟩]) := by
  unfold FileCache.set
  rw [htriple]
  simp only [Except.map]
  congr 1
  rw [if_pos trivial]
  unfold cleanUpOldFiles
  have hfil : (fs ++ [(⟨triple.1, triple.2.1, triple.2.2, ts, sd, (step, options), v⟩ : FCFile α)]).filter
      (fun f => f.matchesKey triple) =
      [⟨triple.1, triple.2.1, triple.2.2, ts, sd, (step, options), v⟩] := by
    rw [List.filter_append]
    rw [List.filter_eq_nil_iff.mpr (fun g hg => by simp [hfresh g hg])]
    simp [matchesKey_self]
  rw [hfil]
  have hsort : sortDescByName
      [(⟨triple.1, triple.2.1, triple.2.2, ts, sd, (step, options), v⟩ : FCFile α)] =
      [⟨triple.1, triple.2.1, triple.2.2, ts, sd, (step, options), v⟩] := rfl
  rw [hsort]
  refine List.filter_eq_self.mpr ?_
  intro g hg
  rcases List.mem_append.mp hg with hgfs | hglast
  · simp [hfresh g hgfs]
  · simp only [List.mem_singleton] at hglast
    subst hglast
    simp

/-- The cleanup pass after a write to a key holding exactly one older
file removes that older file. -/
theorem cleanUpTwo {α : Type} (fs : List (FCFile α)) (f1 f2 : FCFile α)
    (triple : String × String × String)
    (hfresh : ∀ g ∈ fs, g.matchesKey triple = false)
    (hm1 : f1.matchesKey triple = true) (hm2 : f2.matchesKey triple = true)
    (hlt : strLtB f1.fname f2.fname = true) :
    cleanUpOldFiles (fs ++ [f1] ++ [f2]) triple = fs ++ [f2] := by
  unfold cleanUpOldFiles
  have hfil : (fs ++ [f1] ++ [f2]).filter (fun f => f.matchesKey triple) = [f1, f2] := by
    rw [List.filter_append, List.filter_append]
    rw [List.filter_eq_nil_iff.mpr (fun g hg => by simp [hfresh g hg])]
    simp [hm1, hm2]
  rw [hfil]
  have hge : nameGe f1 f2 → False := by
    intro hcon
    have : strLeB f2.fname f1.fname = true := hcon
    simp [strLeB, hlt] at this
  have hsort : sortDescByName [f1, f2] = [f2, f1] := by
    unfold sortDescByName
    simp only [List.insertionSort, List.orderedInsert]
    rw [if_neg hge]
  rw [hsort]
  have hne : (f1.fname == f2.fname) = false :=
    beq_eq_false_iff_ne.mpr (strLtB_ne hlt)
  show (fs ++ [f1] ++ [f2]).filter
      (fun f => !f.matchesKey triple || f.fname == f2.fname) = fs ++ [f2]
  rw [List.filter_append, List.filter_append]
  rw [List.filter_eq_self.mpr (fun g hg => by simp [hfresh g hg])]
  simp [hm1, hm2, hne]

theorem fileCacheGet_dominant {α : Type} (fs : List (FCFile α))
    (step : String) (options : Opts) (triple : String × String × String)
    (f : FCFile α)
    (htriple : formatBasenameTriple step options = .ok triple)
    (hmem : f ∈ fs) (hmatch : f.matchesKey triple = true)
    (hdom : ∀ g ∈ fs, g.matchesKey triple = true → g ≠ f →
      tsSeedLt (g.ts, g.seed) (f.ts, f.seed))
    (hlen : ∀ g ∈ fs, g.matchesKey triple = true →
      g.ts.length = f.ts.length ∧ g.seed.length = f.seed.length) :
    FileCache.get fs step options none = .ok (some f.item) := by
  unfold FileCache.get
  rw [mostRecentFile_dominant fs step options triple f htriple hmem hmatch hdom hlen]
  rfl

/-- C1.  File Cache resolution is most-recent-wins.
First conjunct: two successive `set` calls on a key with no prior
file — with the second write's (timestamp, seed) pair
lexicographically above the first's, and the pairs rendered at equal
string widths (`time_ns` renders 19 digits throughout the source's
era, seeds are always 7 letters) — leave `get` returning the second
value.  Second conjunct: over *any* set of completed writes (any
interleaving of independent writers), `get` returns the value of the
file whose (timestamp, seed) pair lexicographically dominates every
other file of the same key. -/
theorem fileCacheMostRecentWins {α : Type} :
    (∀ (fs : List (FCFile α)) (step : String) (options : Opts)
        (v1 v2 : α) (ts1 sd1 ts2 sd2 : String)
        (triple : String × String × String),
      formatBasenameTriple step options = .ok triple →
      (∀ g ∈ fs, g.matchesKey triple = false) →
      tsSeedLt (ts1, sd1) (ts2, sd2) →
      ts1.length = ts2.length → sd1.length = sd2.length →
      (FileCache.set fs step options v1 ts1 sd1 true).bind (fun fs1 =>
        (FileCache.set fs1 step options v2 ts2 sd2 true).bind (fun fs2 =>
          FileCache.get fs2 step options none)) = .ok (some v2)) ∧
    (∀ (fs : List (FCFile α)) (step : String) (options : Opts)
        (f : FCFile α) (triple : String × String × String),
      formatBasenameTriple step options = .ok triple →
      f ∈ fs → f.matchesKey triple = true →
      (∀ g ∈ fs, g.matchesKey triple = true → g ≠ f →
        tsSeedLt (g.ts, g.seed) (f.ts, f.seed)) →
      (∀ g ∈ fs, g.matchesKey triple = true →
        g.ts.length = f.ts.length ∧ g.seed.length = f.seed.length) →
      FileCache.get fs step options none = .ok (some f.item)) := by
  constructor
  · intro fs step options v1 v2 ts1 sd1 ts2 sd2 triple htriple hfresh hlt hts hsd
    rw [fileCacheSet_fresh fs step options v1 ts1 sd1 triple htriple hfresh]
    simp only [Except.bind]
    unfold FileCache.set
    rw [htriple]
    simp only [Except.map, Except.bind]
    rw [if_pos trivial]
    have hm1 := matchesKey_self (α := α) triple ts1 sd1 (step, options) v1
    have hm2 := matchesKey_self (α := α) triple ts2 sd2 (step, options) v2
    have hltname : strLtB
        (FCFile.mk triple.1 triple.2.1 triple.2.2 ts1 sd1 (step, options) v1).fname
        (FCFile.mk triple.1 triple.2.1 triple.2.2 ts2 sd2 (step, options) v2).fname = true :=
      (fname_lt_iff_pairs (basename_eq_of_matches hm1 hm2) hts hsd).mpr hlt
    rw [cleanUpTwo fs _ _ triple hfresh hm1 hm2 hltname]
    refine fileCacheGet_dominant _ step options triple _ htriple ?_ hm2 ?_ ?_
    · exact List.mem_append.mpr (Or.inr (List.mem_singleton.mpr rfl))
    · intro g hg hgm hne
      rcases List.mem_append.mp hg with hgfs | hglast
      · rw [hfresh g hgfs] at hgm
        exact absurd hgm (by simp)
      · exact absurd (List.mem_singleton.mp hglast) hne
    · intro g hg hgm
      rcases List.mem_append.mp hg with hgfs | hglast
      · rw [hfresh g hgfs] at hgm
        exact absurd hgm (by simp)
      · rw [List.mem_singleton.mp hglast]
        exact ⟨rfl, rfl⟩
  · intro fs step options f triple htriple hmem hmatch hdom hlen
    exact fileCacheGet_dominant fs step options triple f htriple hmem hmatch hdom hlen

/-- Witness for C1: both conjuncts applied at concrete inputs — two
successive writes of 1 then 2 to the fresh key `("s", {s: a})` leave
`get` returning 2, and on a directory holding two completed writes of
the same key `get` returns the one with the greater (timestamp, seed)
pair. -/
theorem fileCacheMostRecentWins_witness :
    (FileCache.set ([] : List (FCFile Nat)) "s" [("s", "a")] 1 "100" "AAAAAAA" true).bind
      (fun fs1 => (FileCache.set fs1 "s" [("s", "a")] 2 "101" "BBBBBBB" true).bind
        (fun fs2 => FileCache.get fs2 "s" [("s", "a")] none)) = .ok (some 2) ∧
    FileCache.get
      [⟨"s", "a", "s=a", "100", "AAAAAAA", ("s", [("s", "a")]), (1 : Nat)⟩,
       ⟨"s", "a", "s=a", "101", "BBBBBBB", ("s", [("s", "a")]), 2⟩]
      "s" [("s", "a")] none = .ok (some 2) :=
  ⟨(fileCacheMostRecentWins (α := Nat)).1 [] "s" [("s", "a")] 1 2 "100" "AAAAAAA"
      "101" "BBBBBBB" ("s", "a", "s=a") (by decide) (by simp) (by decide)
      (by decide) (by decide),
   (fileCacheMostRecentWins (α := Nat)).2
      [⟨"s", "a", "s=a", "100", "AAAAAAA", ("s", [("s", "a")]), 1⟩,
       ⟨"s", "a", "s=a", "101", "BBBBBBB", ("s", [("s", "a")]), 2⟩]
      "s" [("s", "a")]
      ⟨"s", "a", "s=a", "101", "BBBBBBB", ("s", [("s", "a")]), 2⟩
      ("s", "a", "s=a") (by decide) (by decide) (by decide) (by decide) (by decide)⟩

namespace Recipe

theorem mem_addNew (xs : List String) :
    ∀ (acc : List String) (x : String),
      x ∈ addNew acc xs ↔ x ∈ acc ∨ x ∈ xs := by
  induction xs with
  | nil => intro acc x; simp [addNew]
  | cons y ys ih =>
      intro acc x
      unfold addNew
      simp only [List.foldl_cons]
      by_cases hy : y ∈ acc
      · rw [if_pos hy]
        rw [show List.foldl (fun a x => if x ∈ a then a else a ++ [x]) acc ys = addNew acc ys from rfl,
          ih acc x]
        constructor
        · rintro (h | h)
          · exact Or.inl h
          · exact Or.inr (List.mem_cons_of_mem _ h)
        · rintro (h | h)
          · exact Or.inl h
          · rcases List.mem_cons.mp h with rfl | h
            · exact Or.inl hy
            · exact Or.inr h
      · rw [if_neg hy]
        rw [show List.foldl (fun a x => if x ∈ a then a else a ++ [x]) (acc ++ [y]) ys =
          addNew (acc ++ [y]) ys from rfl, ih (acc ++ [y]) x]
        simp only [List.mem_append, List.mem_singleton, List.mem_cons]
        tauto

theorem mem_predecessors {r : Recipe} {p s : String} :
    p ∈ r.predecessors s ↔ (p, s) ∈ r.edges := by
  unfold predecessors
  simp only [List.mem_map, List.mem_filter, beq_iff_eq]
  constructor
  · rintro ⟨e, ⟨he, h2⟩, rfl⟩
    have : e = (e.1, s) := by rw [← h2]
    rwa [← this]
  · intro h
    exact ⟨(p, s), ⟨h, rfl⟩, rfl⟩

theorem mem_successors {r : Recipe} {q s : String} :
    q ∈ r.successors s ↔ (s, q) ∈ r.edges := by
  unfold successors
  simp only [List.mem_map, List.mem_filter, beq_iff_eq]
  constructor
  · rintro ⟨e, ⟨he, h1⟩, rfl⟩
    have : e = (s, e.2) := by rw [← h1]
    rwa [← this]
  · intro h
    exact ⟨(s, q), ⟨h, rfl⟩, rfl⟩

theorem mem_removeNodes_nodes {r : Recipe} {ns : List String} {x : String} :
    x ∈ (r.removeNodes ns).nodes ↔ x ∈ r.nodes ∧ x ∉ ns := by
  unfold removeNodes
  simp [List.mem_filter, List.elem_iff]

theorem mem_removeNodes_edges {r : Recipe} {ns : List String}
    {e : String × String} :
    e ∈ (r.removeNodes ns).edges ↔ e ∈ r.edges ∧ e.1 ∉ ns ∧ e.2 ∉ ns := by
  unfold removeNodes
  simp [List.mem_filter, List.elem_iff]

theorem optsOf_setOpts_same (r : Recipe) (t : String) (new : List String) :
    (r.setOpts t new).optsOf t = new := by
  unfold setOpts optsOf
  have : ∀ l : List (String × List String), (dictInsert l t new).lookup t = some new := by
    intro l
    induction l with
    | nil => simp [dictInsert]
    | cons kv tl ih =>
        unfold dictInsert
        by_cases hk : kv.1 = t
        · simp only [hk, if_pos rfl]
          simp [List.lookup]
        · obtain ⟨k, v⟩ := kv
          simp only at hk
          rw [if_neg hk]
          have : (t == k) = false := by simp [Ne.symm hk]
          simp [List.lookup, this, ih]
  simp [this r.opts]

theorem optsOf_setOpts_other (r : Recipe) (t s : String) (new : List String)
    (h : s ≠ t) : (r.setOpts t new).optsOf s = r.optsOf s := by
  unfold setOpts optsOf
  have : ∀ l : List (String × List String), (dictInsert l t new).lookup s = l.lookup s := by
    intro l
    induction l with
    | nil =>
        have hs : (s == t) = false := by simp [h]
        simp [dictInsert, List.lookup, hs]
    | cons kv tl ih =>
        obtain ⟨k, v⟩ := kv
        unfold dictInsert
        by_cases hk : k = t
        · subst hk
          have hs : (s == k) = false := by simp [h]
          simp [List.lookup, hs]
        · rw [if_neg hk]
          by_cases hsk : s = k
          · subst hsk
            simp [List.lookup]
          · have hs : (s == k) = false := by simp [hsk]
            simp [List.lookup, hs, ih]
  simp [this r.opts]

end Recipe

theorem Reaches.head {r : Recipe} {a b c : String}
    (hab : (a, b) ∈ r.edges) (hbc : Reaches r b c) : Reaches r a c := by
  induction hbc with
  | single h => exact Reaches.tail (Reaches.single hab) h
  | tail _ hlast ih => exact Reaches.tail ih hlast

theorem saturate_pred_sound (r : Recipe) (o : String) :
    ∀ (k : Nat) (acc : List String),
      (∀ y ∈ acc, y = o ∨ Reaches r y o) →
      ∀ x ∈ Recipe.saturate (Recipe.expandPred r) k acc, x = o ∨ Reaches r x o := by
  intro k
  induction k with
  | zero => intro acc hacc x hx; exact hacc x hx
  | succ n ih =>
      intro acc hacc x hx
      refine ih (Recipe.expandPred r acc) ?_ x hx
      intro y hy
      unfold Recipe.expandPred at hy
      rcases (Recipe.mem_addNew _ _ _).mp hy with hy | hy
      · exact hacc y hy
      · simp only [List.mem_flatMap] at hy
        obtain ⟨z, hz, hyz⟩ := hy
        have hedge : (y, z) ∈ r.edges := Recipe.mem_predecessors.mp hyz
        rcases hacc z hz with rfl | hzo
        · exact Or.inr (Reaches.single hedge)
        · exact Or.inr (Reaches.head hedge hzo)

theorem mem_ancestors_sound {r : Recipe} {o x : String}
    (hx : x ∈ r.ancestors o) : Reaches r x o := by
  unfold Recipe.ancestors at hx
  rw [List.mem_filter] at hx
  obtain ⟨hx1, hx2⟩ := hx
  rcases saturate_pred_sound r o r.nodes.length [o]
      (fun y hy => Or.inl (List.mem_singleton.mp hy)) x hx1 with rfl | h
  · simp at hx2
  · exact h

/-- Every node of the output-filtered graph is `ROOT`, a requested
output, or an ancestor of a requested output in the input graph. -/
theorem mem_outputFiltered (r : Recipe) (O : List String) (x : String)
    (hx : x ∈ (outputFiltered r O).nodes) :
    x = ROOT ∨ x ∈ O ∨ ∃ o ∈ O, Reaches r x o := by
  unfold outputFiltered at hx
  rw [Recipe.mem_removeNodes_nodes] at hx
  obtain ⟨hxr, hxk⟩ := hx
  by_cases hkeep : x ∈ Recipe.addNew [] (O ++ [ROOT] ++ O.flatMap (Recipe.ancestors r))
  · rcases (Recipe.mem_addNew _ _ _).mp hkeep with h | h
    · simp at h
    · rcases List.mem_append.mp h with h | h
      · rcases List.mem_append.mp h with h | h
        · exact Or.inr (Or.inl h)
        · exact Or.inl (List.mem_singleton.mp h)
      · simp only [List.mem_flatMap] at h
        obtain ⟨o, ho, hxo⟩ := h
        exact Or.inr (Or.inr ⟨o, ho, mem_ancestors_sound hxo⟩)
  · exfalso
    refine hxk (List.mem_filter.mpr ⟨hxr, ?_⟩)
    have hkeep2 : x ∉ Recipe.addNew [] (O ++ ROOT :: O.flatMap r.ancestors) := by
      simpa using hkeep
    simp [List.elem_iff, hkeep2]

theorem filterOptionsLoop_ok_mode (incl excl : String → String → Bool)
    (mode : String) (hmode : mode = "warn" ∨ mode = "ignore") :
    ∀ (todo : List String) (g : Recipe) (ws : List String),
      ∃ g2 ws2, filterOptionsLoop incl excl mode todo g ws = .ok (g2, ws2) ∧
        (mode = "ignore" → ws2 = ws) := by
  intro todo
  induction todo with
  | nil => intro g ws; exact ⟨g, ws, rfl, fun _ => rfl⟩
  | cons s rest ih =>
      intro g ws
      by_cases hs : s = ROOT
      · obtain ⟨g2, ws2, hrun, hws⟩ := ih g ws
        refine ⟨g2, ws2, ?_, hws⟩
        simp only [filterOptionsLoop, if_pos hs]
        exact hrun
      · by_cases hempty : ((g.optsOf s).filter (optionKept incl excl s)).isEmpty
        · rcases hmode with hm | hm
          · subst hm
            obtain ⟨g2, ws2, hrun, _⟩ := ih
              (g.setOpts s ((g.optsOf s).filter (optionKept incl excl s)))
              (ws ++ ["Excluding all options for step: " ++ s])
            refine ⟨g2, ws2, ?_, fun h => absurd h (by decide)⟩
            simp only [filterOptionsLoop, if_neg hs]
            rw [if_pos hempty, if_neg (by decide), if_pos trivial]
            exact hrun
          · subst hm
            obtain ⟨g2, ws2, hrun, hws⟩ := ih
              (g.setOpts s ((g.optsOf s).filter (optionKept incl excl s))) ws
            refine ⟨g2, ws2, ?_, fun _ => hws rfl⟩
            simp only [filterOptionsLoop, if_neg hs]
            rw [if_pos hempty, if_neg (by decide), if_neg (by decide)]
            exact hrun
        · obtain ⟨g2, ws2, hrun, hws⟩ := ih
            (g.setOpts s ((g.optsOf s).filter (optionKept incl excl s))) ws
          refine ⟨g2, ws2, ?_, hws⟩
          simp only [filterOptionsLoop, if_neg hs]
          rw [if_neg hempty]
          exact hrun

theorem filterOptionsLoop_cons_ok (incl excl : String → String → Bool)
    (mode s : String) (rest : List String) (g : Recipe) (ws : List String)
    (g2 : Recipe) (ws2 : List String)
    (h : filterOptionsLoop incl excl mode (s :: rest) g ws = .ok (g2, ws2)) :
    (s = ROOT ∧ filterOptionsLoop incl excl mode rest g ws = .ok (g2, ws2)) ∨
    (s ≠ ROOT ∧ ∃ ws3, filterOptionsLoop incl excl mode rest
        (g.setOpts s ((g.optsOf s).filter (optionKept incl excl s))) ws3 =
          .ok (g2, ws2)) := by
  by_cases hs : s = ROOT
  · left
    refine ⟨hs, ?_⟩
    simp only [filterOptionsLoop, if_pos hs] at h
    exact h
  · right
    refine ⟨hs, ?_⟩
    simp only [filterOptionsLoop, if_neg hs] at h
    by_cases hempty : ((g.optsOf s).filter (optionKept incl excl s)).isEmpty
    · rw [if_pos hempty] at h
      by_cases hraise : mode = "raise"
      · rw [if_pos hraise] at h
        cases h
      · rw [if_neg hraise] at h
        by_cases hwarn : mode = "warn"
        · rw [if_pos hwarn] at h
          exact ⟨ws ++ ["Excluding all options for step: " ++ s], h⟩
        · rw [if_neg hwarn] at h
          exact ⟨ws, h⟩
    · rw [if_neg hempty] at h
      exact ⟨ws, h⟩

theorem filterOptionsLoop_structure (incl excl : String → String → Bool)
    (mode : String) :
    ∀ (todo : List String) (g : Recipe) (ws : List String) (g2 : Recipe)
      (ws2 : List String),
      filterOptionsLoop incl excl mode todo g ws = .ok (g2, ws2) →
      g2.nodes = g.nodes ∧ g2.edges = g.edges := by
  intro todo
  induction todo with
  | nil =>
      intro g ws g2 ws2 h
      simp only [filterOptionsLoop, Except.ok.injEq, Prod.mk.injEq] at h
      rw [← h.1]
      exact ⟨rfl, rfl⟩
  | cons s rest ih =>
      intro g ws g2 ws2 h
      rcases filterOptionsLoop_cons_ok incl excl mode s rest g ws g2 ws2 h with
        ⟨_, hrun⟩ | ⟨_, ws3, hrun⟩
      · exact ih g ws g2 ws2 hrun
      · exact ih (g.setOpts s ((g.optsOf s).filter (optionKept incl excl s)))
          ws3 g2 ws2 hrun

theorem filterOptionsLoop_opts (incl excl : String → String → Bool)
    (mode : String) :
    ∀ (todo : List String) (g : Recipe) (ws : List String) (g2 : Recipe)
      (ws2 : List String),
      todo.Nodup →
      filterOptionsLoop incl excl mode todo g ws = .ok (g2, ws2) →
      (∀ s ∈ todo, s ≠ ROOT →
        g2.optsOf s = (g.optsOf s).filter (optionKept incl excl s)) ∧
      (∀ s, s ∉ todo → g2.optsOf s = g.optsOf s) := by
  intro todo
  induction todo with
  | nil =>
      intro g ws g2 ws2 _ h
      simp only [filterOptionsLoop, Except.ok.injEq, Prod.mk.injEq] at h
      rw [← h.1]
      exact ⟨fun s hs => absurd hs (List.not_mem_nil s), fun s _ => rfl⟩
  | cons t rest ih =>
      intro g ws g2 ws2 hnd h
      have hndr : rest.Nodup := hnd.of_cons
      have htr : t ∉ rest := by
        intro hcon
        exact (List.nodup_cons.mp hnd).1 hcon
      rcases filterOptionsLoop_cons_ok incl excl mode t rest g ws g2 ws2 h with
        ⟨ht, hrun⟩ | ⟨ht, ws3, hrun⟩
      · obtain ⟨h1, h2⟩ := ih g ws g2 ws2 hndr hrun
        constructor
        · intro s hs hsroot
          rcases List.mem_cons.mp hs with rfl | hs
          · exact absurd ht hsroot
          · exact h1 s hs hsroot
        · intro s hs
          exact h2 s (fun hcon => hs (List.mem_cons_of_mem t hcon))
      · obtain ⟨h1, h2⟩ := ih _ ws3 g2 ws2 hndr hrun
        constructor
        · intro s hs hsroot
          rcases List.mem_cons.mp hs with rfl | hs
          · rw [h2 s htr, Recipe.optsOf_setOpts_same]
          · rw [h1 s hs hsroot,
              Recipe.optsOf_setOpts_other g t s _ (fun hcon => htr (hcon ▸ hs))]
        · intro s hs
          have hst : s ≠ t := fun hcon => hs (hcon ▸ List.mem_cons_self t rest)
          rw [h2 s (fun hcon => hs (List.mem_cons_of_mem t hcon)),
            Recipe.optsOf_setOpts_other g t s _ hst]

theorem filterOptionsLoop_raise (incl excl : String → String → Bool) :
    ∀ (todo : List String) (g : Recipe) (ws : List String),
      (∃ s ∈ todo, s ≠ ROOT ∧
        (g.optsOf s).filter (optionKept incl excl s) = []) →
      todo.Nodup →
      ∃ e, filterOptionsLoop incl excl "raise" todo g ws = .error e := by
  intro todo
  induction todo with
  | nil =>
      intro g ws h _
      obtain ⟨s, hs, _⟩ := h
      exact absurd hs (List.not_mem_nil s)
  | cons t rest ih =>
      intro g ws h hnd
      obtain ⟨s, hs, hsroot, hsempty⟩ := h
      by_cases ht : t = ROOT
      · have hst : s ≠ t := fun hcon => hsroot (hcon.trans ht)
        have hsrest : s ∈ rest := by
          rcases List.mem_cons.mp hs with rfl | h2
          · exact absurd rfl hst
          · exact h2
        obtain ⟨e, he⟩ := ih g ws ⟨s, hsrest, hsroot, hsempty⟩ hnd.of_cons
        refine ⟨e, ?_⟩
        simp only [filterOptionsLoop, if_pos ht]
        exact he
      · by_cases hempty : ((g.optsOf t).filter (optionKept incl excl t)).isEmpty
        · refine ⟨.valueError, ?_⟩
          simp only [filterOptionsLoop, if_neg ht]
          rw [if_pos hempty, if_pos trivial]
        · have hst : s ≠ t := by
            intro hcon
            subst hcon
            rw [hsempty] at hempty
            simp at hempty
          have hsrest : s ∈ rest := by
            rcases List.mem_cons.mp hs with rfl | h2
            · exact absurd rfl hst
            · exact h2
          have htr : t ∉ rest := (List.nodup_cons.mp hnd).1
          obtain ⟨e, he⟩ := ih
            (g.setOpts t ((g.optsOf t).filter (optionKept incl excl t))) ws
            ⟨s, hsrest, hsroot, by
              rw [Recipe.optsOf_setOpts_other g t s _ hst]
              exact hsempty⟩ hnd.of_cons
          refine ⟨e, ?_⟩
          simp only [filterOptionsLoop, if_neg ht]
          rw [if_neg hempty]
          exact he

theorem addEdge_nodes (r : Recipe) (e : String × String) :
    (r.addEdge e).nodes = r.nodes := by
  unfold Recipe.addEdge
  split <;> rfl

theorem addEdge_opts (r : Recipe) (e : String × String) :
    (r.addEdge e).opts = r.opts := by
  unfold Recipe.addEdge
  split <;> rfl

theorem mem_addEdge_of_mem (r : Recipe) (e e' : String × String)
    (h : e' ∈ r.edges) : e' ∈ (r.addEdge e).edges := by
  unfold Recipe.addEdge
  split
  · exact h
  · exact List.mem_append.mpr (Or.inl h)

theorem mem_addEdge_self (r : Recipe) (e : String × String) :
    e ∈ (r.addEdge e).edges := by
  unfold Recipe.addEdge
  split
  · assumption
  · exact List.mem_append.mpr (Or.inr (List.mem_singleton.mpr rfl))

theorem addEdges_nodes : ∀ (es : List (String × String)) (r : Recipe),
    (r.addEdges es).nodes = r.nodes := by
  intro es
  induction es with
  | nil => intro r; rfl
  | cons e rest ih =>
      intro r
      show ((r.addEdge e).addEdges rest).nodes = r.nodes
      rw [ih (r.addEdge e), addEdge_nodes]

theorem addEdges_opts : ∀ (es : List (String × String)) (r : Recipe),
    (r.addEdges es).opts = r.opts := by
  intro es
  induction es with
  | nil => intro r; rfl
  | cons e rest ih =>
      intro r
      show ((r.addEdge e).addEdges rest).opts = r.opts
      rw [ih (r.addEdge e), addEdge_opts]

theorem addEdges_optsOf (es : List (String × String)) (r : Recipe)
    (x : String) : (r.addEdges es).optsOf x = r.optsOf x := by
  unfold Recipe.optsOf
  rw [addEdges_opts]

theorem mem_addEdges_of_mem : ∀ (es : List (String × String)) (r : Recipe)
    (e' : String × String), e' ∈ r.edges → e' ∈ (r.addEdges es).edges := by
  intro es
  induction es with
  | nil => intro r e' h; exact h
  | cons e rest ih =>
      intro r e' h
      exact ih (r.addEdge e) e' (mem_addEdge_of_mem r e e' h)

theorem mem_addEdges_self : ∀ (es : List (String × String)) (r : Recipe)
    (e : String × String), e ∈ es → e ∈ (r.addEdges es).edges := by
  intro es
  induction es with
  | nil => intro r e h; exact absurd h (List.not_mem_nil e)
  | cons e0 rest ih =>
      intro r e h
      rcases List.mem_cons.mp h with rfl | h
      · exact mem_addEdges_of_mem rest (r.addEdge e) e (mem_addEdge_self r e)
      · exact ih (r.addEdge e0) e h

theorem spliceLoop_nodes : ∀ (todo : List String) (g : Recipe)
    (acc : List String), (spliceLoop todo g acc).1.nodes = g.nodes := by
  intro todo
  induction todo with
  | nil => intro g acc; rfl
  | cons s rest ih =>
      intro g acc
      unfold spliceLoop
      by_cases hs : s = ROOT
      · rw [if_pos hs]; exact ih g acc
      · rw [if_neg hs]
        by_cases hempty : (g.optsOf s).isEmpty
        · rw [if_pos hempty]
          rw [ih _ _, addEdges_nodes]
        · rw [if_neg hempty]; exact ih g acc

theorem spliceLoop_optsOf : ∀ (todo : List String) (g : Recipe)
    (acc : List String) (x : String),
    (spliceLoop todo g acc).1.optsOf x = g.optsOf x := by
  intro todo
  induction todo with
  | nil => intro g acc x; rfl
  | cons s rest ih =>
      intro g acc x
      unfold spliceLoop
      by_cases hs : s = ROOT
      · rw [if_pos hs]; exact ih g acc x
      · rw [if_neg hs]
        by_cases hempty : (g.optsOf s).isEmpty
        · rw [if_pos hempty]
          rw [ih _ _ x, addEdges_optsOf]
        · rw [if_neg hempty]; exact ih g acc x

theorem spliceLoop_edges_mono : ∀ (todo : List String) (g : Recipe)
    (acc : List String) (e : String × String),
    e ∈ g.edges → e ∈ (spliceLoop todo g acc).1.edges := by
  intro todo
  induction todo with
  | nil => intro g acc e h; exact h
  | cons s rest ih =>
      intro g acc e h
      unfold spliceLoop
      by_cases hs : s = ROOT
      · rw [if_pos hs]; exact ih g acc e h
      · rw [if_neg hs]
        by_cases hempty : (g.optsOf s).isEmpty
        · rw [if_pos hempty]
          exact ih _ _ e (mem_addEdges_of_mem _ g e h)
        · rw [if_neg hempty]; exact ih g acc e h

theorem spliceLoop_acc_mono : ∀ (todo : List String) (g : Recipe)
    (acc : List String) (x : String),
    x ∈ acc → x ∈ (spliceLoop todo g acc).2 := by
  intro todo
  induction todo with
  | nil => intro g acc x h; exact h
  | cons s rest ih =>
      intro g acc x h
      unfold spliceLoop
      by_cases hs : s = ROOT
      · rw [if_pos hs]; exact ih g acc x h
      · rw [if_neg hs]
        by_cases hempty : (g.optsOf s).isEmpty
        · rw [if_pos hempty]
          exact ih _ _ x (List.mem_append.mpr (Or.inl h))
        · rw [if_neg hempty]; exact ih g acc x h

theorem spliceLoop_remove_sub : ∀ (todo : List String) (g : Recipe)
    (acc : List String) (x : String),
    x ∈ (spliceLoop todo g acc).2 →
    x ∈ acc ∨ (x ∈ todo ∧ x ≠ ROOT ∧ g.optsOf x = []) := by
  intro todo
  induction todo with
  | nil => intro g acc x h; exact Or.inl h
  | cons s rest ih =>
      intro g acc x h
      unfold spliceLoop at h
      by_cases hs : s = ROOT
      · rw [if_pos hs] at h
        rcases ih g acc x h with h | ⟨h1, h2, h3⟩
        · exact Or.inl h
        · exact Or.inr ⟨List.mem_cons_of_mem s h1, h2, h3⟩
      · rw [if_neg hs] at h
        by_cases hempty : (g.optsOf s).isEmpty
        · rw [if_pos hempty] at h
          rcases ih _ _ x h with h | ⟨h1, h2, h3⟩
          · rcases List.mem_append.mp h with h | h
            · exact Or.inl h
            · rw [List.mem_singleton.mp h]
              exact Or.inr ⟨List.mem_cons_self s rest, hs,
                List.isEmpty_iff.mp hempty⟩
          · rw [addEdges_optsOf] at h3
            exact Or.inr ⟨List.mem_cons_of_mem s h1, h2, h3⟩
        · rw [if_neg hempty] at h
          rcases ih g acc x h with h | ⟨h1, h2, h3⟩
          · exact Or.inl h
          · exact Or.inr ⟨List.mem_cons_of_mem s h1, h2, h3⟩

theorem spliceLoop_remove_mem : ∀ (todo : List String) (g : Recipe)
    (acc : List String) (s : String),
    s ∈ todo → s ≠ ROOT → g.optsOf s = [] →
    s ∈ (spliceLoop todo g acc).2 := by
  intro todo
  induction todo with
  | nil => intro g acc s h; exact absurd h (List.not_mem_nil s)
  | cons t rest ih =>
      intro g acc s hmem hroot hempty
      unfold spliceLoop
      by_cases ht : t = ROOT
      · rw [if_pos ht]
        have hst : s ≠ t := fun hcon => hroot (hcon.trans ht)
        have : s ∈ rest := by
          rcases List.mem_cons.mp hmem with rfl | h
          · exact absurd rfl hst
          · exact h
        exact ih g acc s this hroot hempty
      · rw [if_neg ht]
        by_cases htempty : (g.optsOf t).isEmpty
        · rw [if_pos htempty]
          by_cases hst : s = t
          · subst hst
            exact spliceLoop_acc_mono rest _ _ s
              (List.mem_append.mpr (Or.inr (List.mem_singleton.mpr rfl)))
          · have hsrest : s ∈ rest := by
              rcases List.mem_cons.mp hmem with rfl | h
              · exact absurd rfl hst
              · exact h
            refine ih _ _ s hsrest hroot ?_
            rw [addEdges_optsOf]
            exact hempty
        · rw [if_neg htempty]
          have hst : s ≠ t := by
            intro hcon
            subst hcon
            rw [hempty] at htempty
            simp at htempty
          have hsrest : s ∈ rest := by
            rcases List.mem_cons.mp hmem with rfl | h
            · exact absurd rfl hst
            · exact h
          exact ih g acc s hsrest hroot hempty

theorem spliceLoop_wiring : ∀ (todo : List String) (g : Recipe)
    (acc : List String) (s p q : String),
    s ∈ todo → s ≠ ROOT → g.optsOf s = [] →
    (p, s) ∈ g.edges → (s, q) ∈ g.edges →
    (p, q) ∈ (spliceLoop todo g acc).1.edges := by
  intro todo
  induction todo with
  | nil => intro g acc s p q h; exact absurd h (List.not_mem_nil s)
  | cons t rest ih =>
      intro g acc s p q hmem hroot hempty hps hsq
      unfold spliceLoop
      by_cases ht : t = ROOT
      · rw [if_pos ht]
        have hst : s ≠ t := fun hcon => hroot (hcon.trans ht)
        have hsrest : s ∈ rest := by
          rcases List.mem_cons.mp hmem with rfl | h
          · exact absurd rfl hst
          · exact h
        exact ih g acc s p q hsrest hroot hempty hps hsq
      · rw [if_neg ht]
        by_cases htempty : (g.optsOf t).isEmpty
        · rw [if_pos htempty]
          by_cases hst : s = t
          · subst hst
            refine spliceLoop_edges_mono rest _ _ (p, q) ?_
            refine mem_addEdges_self _ g (p, q) ?_
            simp only [List.mem_flatMap, List.mem_map]
            exact ⟨p, Recipe.mem_predecessors.mpr hps, q,
              Recipe.mem_successors.mpr hsq, rfl⟩
          · have hsrest : s ∈ rest := by
              rcases List.mem_cons.mp hmem with rfl | h
              · exact absurd rfl hst
              · exact h
            refine ih _ _ s p q hsrest hroot ?_ ?_ ?_
            · rw [addEdges_optsOf]; exact hempty
            · exact mem_addEdges_of_mem _ g _ hps
            · exact mem_addEdges_of_mem _ g _ hsq
        · rw [if_neg htempty]
          have hst : s ≠ t := by
            intro hcon
            subst hcon
            rw [hempty] at htempty
            simp at htempty
          have hsrest : s ∈ rest := by
            rcases List.mem_cons.mp hmem with rfl | h
            · exact absurd rfl hst
            · exact h
          exact ih g acc s p q hsrest hroot hempty hps hsq

/-- A retained step loses every option under the filters. -/
def purgedIn (g : Recipe) (includeP excludeP : String → String → Bool)
    (s : String) : Prop :=
  s ≠ ROOT ∧ (g.optsOf s).filter (optionKept includeP excludeP s) = []

theorem filterRecipe_ok_inversion (r : Recipe) (O : List String)
    (includeP excludeP : String → String → Bool) (mode : String)
    (r2 : Recipe) (ws : List String)
    (h : filterRecipe r (some O) includeP excludeP mode = .ok (r2, ws)) :
    ∃ g2, filterOptionsLoop includeP excludeP mode
        (outputFiltered r O).nodes (outputFiltered r O) [] = .ok (g2, ws) ∧
      r2 = ((spliceLoop g2.nodes g2 []).1).removeNodes
        (spliceLoop g2.nodes g2 []).2 := by
  unfold filterRecipe at h
  by_cases hm : mode ∉ purgeModes
  · rw [if_pos hm] at h
    cases h
  · rw [if_neg hm] at h
    simp only [Option.getD] at h
    by_cases hchk : (O.any fun o => !r.nodes.contains o) = true
    · rw [if_pos hchk] at h
      cases h
    · rw [if_neg hchk] at h
      cases hloop : filterOptionsLoop includeP excludeP mode
          (outputFiltered r O).nodes (outputFiltered r O) [] with
      | error e =>
          rw [hloop] at h
          cases h
      | ok gw =>
          obtain ⟨g2, ws2⟩ := gw
          rw [hloop] at h
          simp only [Except.ok.injEq, Prod.mk.injEq] at h
          refine ⟨g2, ?_, ?_⟩
          · rw [← h.2]
          · rw [← h.1]

theorem filterRecipe_run_ok (r : Recipe) (O : List String)
    (includeP excludeP : String → String → Bool) (mode : String)
    (hmode : mode ∈ purgeModes) (hO : ∀ o ∈ O, o ∈ r.nodes)
    (g2 : Recipe) (ws2 : List String)
    (hloop : filterOptionsLoop includeP excludeP mode
      (outputFiltered r O).nodes (outputFiltered r O) [] = .ok (g2, ws2)) :
    filterRecipe r (some O) includeP excludeP mode =
      .ok (((spliceLoop g2.nodes g2 []).1).removeNodes
        (spliceLoop g2.nodes g2 []).2, ws2) := by
  unfold filterRecipe
  rw [if_neg (fun hcon => hcon hmode)]
  simp only [Option.getD]
  have hchk : (O.any fun o => !r.nodes.contains o) = false := by
    rw [List.any_eq_false]
    intro o ho
    simp [List.elem_iff, hO o ho]
  rw [if_neg (by rw [hchk]; simp)]
  rw [hloop]

theorem filterRecipe_run_error (r : Recipe) (O : List String)
    (includeP excludeP : String → String → Bool) (mode : String)
    (hmode : mode ∈ purgeModes) (hO : ∀ o ∈ O, o ∈ r.nodes)
    (e : PyErr)
    (hloop : filterOptionsLoop includeP excludeP mode
      (outputFiltered r O).nodes (outputFiltered r O) [] = .error e) :
    filterRecipe r (some O) includeP excludeP mode = .error e := by
  unfold filterRecipe
  rw [if_neg (fun hcon => hcon hmode)]
  simp only [Option.getD]
  have hchk : (O.any fun o => !r.nodes.contains o) = false := by
    rw [List.any_eq_false]
    intro o ho
    simp [List.elem_iff, hO o ho]
  rw [if_neg (by rw [hchk]; simp)]
  rw [hloop]

/-- The conclusions of claim C2 for a recipe `r`, requested outputs
`O`, and parsed include/exclude predicates: (1) any successful
`filter_recipe` run retains only `ROOT`, requested outputs, and
ancestors of requested outputs; (2) a retained step whose options are
all excluded is spliced out of any successful result, and each of its
non-purged predecessor/successor pairs is wired as a direct edge;
(3) with `on_purge_step="raise"` the presence of such a step makes the
call raise; (4) with `"ignore"` the call succeeds with no warning
emitted. -/
def filterRecipeClaim (r : Recipe) (O : List String)
    (includeP excludeP : String → String → Bool) : Prop :=
  (∀ (mode : String) (r2 : Recipe) (ws : List String),
    filterRecipe r (some O) includeP excludeP mode = .ok (r2, ws) →
    ∀ x ∈ r2.nodes, x = ROOT ∨ x ∈ O ∨ ∃ o ∈ O, Reaches r x o) ∧
  (∀ (mode : String) (r2 : Recipe) (ws : List String),
    filterRecipe r (some O) includeP excludeP mode = .ok (r2, ws) →
    ∀ s ∈ (outputFiltered r O).nodes,
      purgedIn (outputFiltered r O) includeP excludeP s →
      s ∉ r2.nodes ∧
      ∀ p q, (p, s) ∈ (outputFiltered r O).edges →
        (s, q) ∈ (outputFiltered r O).edges →
        ¬purgedIn (outputFiltered r O) includeP excludeP p →
        ¬purgedIn (outputFiltered r O) includeP excludeP q →
        (p, q) ∈ r2.edges) ∧
  ((∃ s ∈ (outputFiltered r O).nodes,
      purgedIn (outputFiltered r O) includeP excludeP s) →
    ∃ e, filterRecipe r (some O) includeP excludeP "raise" = .error e) ∧
  (∃ r2, filterRecipe r (some O) includeP excludeP "ignore" = .ok (r2, []))

/-- C2.  `filter_recipe` retains no step outside the ancestor closure
of the requested outputs, splices fully-excluded steps out (wiring
surviving predecessors to surviving successors), raises under
`on_purge_step="raise"` when a step loses every option, and proceeds
silently under `"ignore"`. -/
theorem filterRecipeSpec (r : Recipe) (O : List String)
    (includeP excludeP : String → String → Bool)
    (hO : ∀ o ∈ O, o ∈ r.nodes) (hnd : r.nodes.Nodup) :
    filterRecipeClaim r O includeP excludeP := by
  have hnd1 : (outputFiltered r O).nodes.Nodup := hnd.filter _
  refine ⟨?_, ?_, ?_, ?_⟩
  · intro mode r2 ws h x hx
    obtain ⟨g2, hloop, hr2⟩ :=
      filterRecipe_ok_inversion r O includeP excludeP mode r2 ws h
    obtain ⟨hn, _⟩ :=
      filterOptionsLoop_structure includeP excludeP mode _ _ _ _ _ hloop
    subst hr2
    rw [Recipe.mem_removeNodes_nodes] at hx
    have hx3 := hx.1
    rw [spliceLoop_nodes, hn] at hx3
    exact mem_outputFiltered r O x hx3
  · intro mode r2 ws h s hs hpurged
    obtain ⟨g2, hloop, hr2⟩ :=
      filterRecipe_ok_inversion r O includeP excludeP mode r2 ws h
    obtain ⟨hn, he⟩ :=
      filterOptionsLoop_structure includeP excludeP mode _ _ _ _ _ hloop
    obtain ⟨hopts1, _⟩ :=
      filterOptionsLoop_opts includeP excludeP mode _ _ _ _ _ hnd1 hloop
    have hg2opts : g2.optsOf s = [] := by
      rw [hopts1 s hs hpurged.1]
      exact hpurged.2
    have hsg2 : s ∈ g2.nodes := by rw [hn]; exact hs
    subst hr2
    constructor
    · intro hcon
      rw [Recipe.mem_removeNodes_nodes] at hcon
      exact hcon.2 (spliceLoop_remove_mem g2.nodes g2 [] s hsg2 hpurged.1 hg2opts)
    · intro p q hps hsq hnp hnq
      rw [Recipe.mem_removeNodes_edges]
      refine ⟨?_, ?_, ?_⟩
      · refine spliceLoop_wiring g2.nodes g2 [] s p q hsg2 hpurged.1 hg2opts ?_ ?_
        · rw [he]; exact hps
        · rw [he]; exact hsq
      · intro hcon
        rcases spliceLoop_remove_sub g2.nodes g2 [] p hcon with hin | ⟨h1, h2, h3⟩
        · simp at hin
        · refine hnp ⟨h2, ?_⟩
          rw [← hopts1 p (by rw [← hn]; exact h1) h2]
          exact h3
      · intro hcon
        rcases spliceLoop_remove_sub g2.nodes g2 [] q hcon with hin | ⟨h1, h2, h3⟩
        · simp at hin
        · refine hnq ⟨h2, ?_⟩
          rw [← hopts1 q (by rw [← hn]; exact h1) h2]
          exact h3
  · rintro ⟨s, hs, hpurged⟩
    obtain ⟨e, he⟩ := filterOptionsLoop_raise includeP excludeP
      (outputFiltered r O).nodes (outputFiltered r O) []
      ⟨s, hs, hpurged.1, hpurged.2⟩ hnd1
    exact ⟨e, filterRecipe_run_error r O includeP excludeP "raise"
      (by decide) hO e he⟩
  · obtain ⟨g2, ws2, hloop, hws⟩ := filterOptionsLoop_ok_mode includeP excludeP
      "ignore" (Or.inr rfl) (outputFiltered r O).nodes (outputFiltered r O) []
    rw [hws rfl] at hloop
    exact ⟨_, filterRecipe_run_ok r O includeP excludeP "ignore"
      (by decide) hO g2 [] hloop⟩

/-- Witness for C2 on the chain `ROOT → a → b` with requested output
`b`, all options included and none excluded. -/
theorem filterRecipeSpec_witness :
    (∀ o ∈ ["b"], o ∈ chainAB.nodes) ∧ chainAB.nodes.Nodup ∧
    filterRecipeClaim chainAB ["b"] (fun _ _ => true) (fun _ _ => false) :=
  ⟨by decide, by decide,
    filterRecipeSpec chainAB ["b"] (fun _ _ => true) (fun _ _ => false)
      (by decide) (by decide)⟩
